import Mathlib

/-!
Verification development for the pytastic validation library.

We shallowly embed the validator execution semantics of
`src/pytastic/validators.py`, the codegen backend of `src/pytastic/codegen.py`,
the constraint parser of `src/pytastic/utils.py`, and the memoizing compiler of
`src/pytastic/compiler.py`, and prove/refute the specified properties.

Modelling conventions:
* Python runtime values are the inductive `PyVal`; Python `bool` is a subclass
  of `int`, so boolean values pass `isinstance(x, (int, float))`, which the
  model mirrors via `toRat?`.
* Python floats are idealised as exact rationals `ℚ`; the 1e-9 tolerance
  formula of `math.isclose` is transcribed literally over `ℚ`.
* Error entries `(path, message)` are pairs of the literal dotted/bracketed
  path string and a structured message constructor carrying exactly the data
  interpolated into the Python message f-string.
-/

namespace Pytastic

/-- Python runtime values as consumed/produced by the validators. -/
inductive PyVal : Type
  | none
  | bool (b : Bool)
  | int (n : ℤ)
  | float (q : ℚ)
  | str (s : String)
  | list (xs : List PyVal)
  | tuple (xs : List PyVal)
  | dict (kvs : List (String × PyVal))
deriving Repr

/-- Numeric view of a Python value: `isinstance(x, (int, float))` succeeds
exactly on `bool` (a subclass of `int`), `int` and `float`; the numeric value
of `True`/`False` is `1`/`0`. -/
def toRat? : PyVal → Option ℚ
  | .bool b => some (if b then 1 else 0)
  | .int n => some (n : ℤ)
  | .float q => some q
  | _ => Option.none

/-- First value bound to key `k` in an association-list dict. -/
def containsKey (kvs : List (String × PyVal)) (k : String) : Bool :=
  kvs.any (fun kv => kv.1 == k)

mutual

/-- Python `==` on the embedded values: numbers (including `bool`) compare by
numeric value across kinds, strings by content, lists/tuples elementwise and
never across the list/tuple divide, dicts as equal-sized maps with `==`-equal
values per key. -/
def pyEq : PyVal → PyVal → Bool
  | .none, .none => true
  | .str a, .str c => a == c
  | .list xs, .list ys => pyEqList xs ys
  | .tuple xs, .tuple ys => pyEqList xs ys
  | .dict xs, .dict ys => xs.length == ys.length && pyEqDictAll xs ys
  | a, c =>
    match toRat? a, toRat? c with
    | some p, some q => p == q
    | _, _ => false
termination_by a c => sizeOf a + sizeOf c
decreasing_by all_goals (simp_wf <;> omega)

def pyEqList : List PyVal → List PyVal → Bool
  | [], [] => true
  | x :: xs, y :: ys => pyEq x y && pyEqList xs ys
  | _, _ => false
termination_by xs ys => sizeOf xs + sizeOf ys
decreasing_by all_goals (simp_wf <;> omega)

/-- Every binding of `xs` has a `==`-equal value under the same key in `ys`. -/
def pyEqDictAll : List (String × PyVal) → List (String × PyVal) → Bool
  | [], _ => true
  | (k, v) :: rest, ys => pyDictGetBeq ys k v && pyEqDictAll rest ys
termination_by xs ys => sizeOf xs + sizeOf ys
decreasing_by all_goals (simp_wf <;> omega)

def pyDictGetBeq : List (String × PyVal) → String → PyVal → Bool
  | [], _, _ => false
  | (l, w) :: rest, k, v => if l == k then pyEq v w else pyDictGetBeq rest k v
termination_by xvs k v => sizeOf xvs + sizeOf v
decreasing_by all_goals (simp_wf <;> omega)

end

/-- Structured validation messages: one constructor per distinct message
produced in `validators.py`/`codegen.py`, carrying exactly the values the
Python code interpolates into the message string. -/
inductive Msg : Type
  | invalidType
  | expectedInteger
  | mustBeGE (m : ℚ)
  | mustBeLE (m : ℚ)
  | mustBeGT (m : ℚ)
  | mustBeLT (m : ℚ)
  | mustBeMultipleOf (s : ℚ)
  | lengthGE (n : ℕ)
  | lengthLE (n : ℕ)
  | patternMismatch
  | invalidEmail
  | invalidUuid
  | minItems (n : ℕ)
  | maxItems (n : ℕ)
  | duplicateItems
  | expectedNItems (n : ℕ)
  | noMatchUnion
  | noMatchOneOf
  | multipleOneOf
  | fieldRequired
  | extraFieldNotAllowed
  | tooFewProperties (n : ℕ)
  | expectedOneOf (vals : List PyVal)
deriving Repr

/-- A path-qualified error entry, the `{"path": ..., "message": ...}` records
carried by `ValidationError.errors`. -/
abbrev Entry := String × Msg

/-- `f"{path}.{key}" if path else key` -/
def joinField (path k : String) : String := if path = "" then k else path ++ "." ++ k

/-- `f"{path}[{i}]"` -/
def idxPath (path : String) (i : ℕ) : String := path ++ "[" ++ toString i ++ "]"

/-! ### Number validator (`NumberValidator.validate`, validators.py lines 50-75) -/

inductive NumberType | intT | floatT
deriving DecidableEq, Repr

/-- Compiled fields of `NumberValidator`; `number_type` is `int` or `float`,
all bound fields are `None` or a float (idealised as `ℚ`). -/
structure NumberV where
  numberType : NumberType
  min_val : Option ℚ
  max_val : Option ℚ
  exclusive_min_val : Option ℚ
  exclusive_max_val : Option ℚ
  step_val : Option ℚ
deriving Repr

/-- `math.isclose(a, b, abs_tol=1e-9)` with its default `rel_tol=1e-9`:
`abs(a-b) <= max(rel_tol*max(abs(a),abs(b)), abs_tol)`. -/
def isclose (a b : ℚ) : Bool :=
  |a - b| ≤ max ((1 / 1000000000) * max |a| |b|) (1 / 1000000000)

/-- Python float `%`: result has the divisor's sign, `a - s*floor(a/s)`.
(The source would raise `ZeroDivisionError` for a zero step; theorems about
the step check assume a nonzero step.) -/
def pymod (a s : ℚ) : ℚ := a - s * ⌊a / s⌋

/-- Python `int(q)` truncates toward zero. -/
def pyIntOfRat (q : ℚ) : ℤ := if 0 ≤ q then ⌊q⌋ else ⌈q⌉

/-- `self.number_type(val)`: the final normalizing cast. -/
def castNumber : NumberType → ℚ → PyVal
  | .intT, q => .int (pyIntOfRat q)
  | .floatT, q => .float q

/-- `isinstance(data, float) and not data.is_integer()` -/
def isFloatNonIntegral : PyVal → Bool
  | .float q => !(q.den == 1)
  | _ => false

/-- One conditional check on an optional constraint field. -/
def optCheck (o : Option ℚ) (viol : ℚ → Bool) (msg : ℚ → Msg) (path : String) :
    Except (List Entry) Unit :=
  match o with
  | some m => if viol m then .error [(path, msg m)] else .ok ()
  | Option.none => .ok ()

def optCheckN (o : Option ℕ) (viol : ℕ → Bool) (msg : ℕ → Msg) (path : String) :
    Except (List Entry) Unit :=
  match o with
  | some m => if viol m then .error [(path, msg m)] else .ok ()
  | Option.none => .ok ()

/-- `NumberValidator.validate`: type check, integer check, then the bound and
step checks in source order, each raising immediately with one entry; on
success returns `self.number_type(val)`. -/
def numberValidate (v : NumberV) (data : PyVal) (path : String) :
    Except (List Entry) PyVal :=
  match toRat? data with
  | Option.none => .error [(path, Msg.invalidType)]
  | some q => do
    if v.numberType = .intT && isFloatNonIntegral data then
      throw [(path, Msg.expectedInteger)]
    optCheck v.min_val (fun m => decide (q < m)) Msg.mustBeGE path
    optCheck v.max_val (fun m => decide (m < q)) Msg.mustBeLE path
    optCheck v.exclusive_min_val (fun m => decide (q ≤ m)) Msg.mustBeGT path
    optCheck v.exclusive_max_val (fun m => decide (m ≤ q)) Msg.mustBeLT path
    optCheck v.step_val
      (fun s => !(isclose (pymod q s) 0 || isclose (pymod q s) s))
      Msg.mustBeMultipleOf path
    pure (castNumber v.numberType q)

/-! ### String validator (`StringValidator.validate`, validators.py lines 93-115) -/

/-- Compiled fields of `StringValidator`. `pattern` abstracts the compiled
regex as its `re.search` predicate (present only when the constraint is a
truthy string, as in the source's `self.pattern and isinstance(...)` guard);
`format` keeps the raw format name, of which only `"email"` and `"uuid"` have
checks in the source. -/
structure StringV where
  min_len : Option ℕ
  max_len : Option ℕ
  pattern : Option (String → Bool)
  format : Option String

def isHexLower (c : Char) : Bool := c.isDigit || (c ≥ 'a' && c ≤ 'f')

/-- `re.match(r'^[0-9a-f]{8}-[0-9a-f]{4}-[0-9a-f]{4}-[0-9a-f]{4}-[0-9a-f]{12}$', val.lower())` -/
def uuidCheck (s : String) : Bool :=
  let parts := s.toLower.splitOn "-"
  parts.map String.length == [8, 4, 4, 4, 12] &&
    parts.all (fun p => p.toList.all isHexLower)

/-- `StringValidator.validate`: type, length bounds (code-point count),
pattern search, then the format heuristics, each raising immediately. -/
def stringValidate (v : StringV) (data : PyVal) (path : String) :
    Except (List Entry) PyVal :=
  match data with
  | .str s => do
    optCheckN v.min_len (fun n => decide (s.length < n)) Msg.lengthGE path
    optCheckN v.max_len (fun n => decide (n < s.length)) Msg.lengthLE path
    (match v.pattern with
     | some p => if !(p s) then throw [(path, Msg.patternMismatch)] else pure ()
     | Option.none => pure ())
    (match v.format with
     | some f =>
       if f == "email" then
         (if !(s.contains '@') then throw [(path, Msg.invalidEmail)] else pure ())
       else if f == "uuid" then
         (if !(uuidCheck s) then throw [(path, Msg.invalidUuid)] else pure ())
       else pure ()
     | Option.none => pure ())
    pure (.str s)
  | _ => .error [(path, Msg.invalidType)]

/-! ### The validator tree and its execution semantics -/

/-- Constraints read by `CollectionValidator.validate`: `min_items`,
`max_items` and the truthiness of `unique`/`unique_items`. -/
structure CollConstraints where
  min_items : Option ℕ
  max_items : Option ℕ
  unique : Bool
deriving Repr, DecidableEq

/-- Constraints read by `ObjectValidator.validate`: `strictLike` is the
truthiness of `constraints.get('additional_properties') is False or
constraints.get('strict')`; `min_properties` the parsed
`min_properties`/`min_props` bound when present. -/
structure ObjConstraints where
  strictLike : Bool
  min_properties : Option ℕ
deriving Repr, DecidableEq

inductive UnionMode | anyOf | oneOf
deriving DecidableEq, Repr

/-- The compiled validator tree of `validators.py`. The three collection
constructors correspond to `CollectionValidator.item_validator` being `None`,
a single `Validator`, or a list of validators (the tuple form). Metadata
fields (`title`, `description`, `default`) play no role in `validate` and are
omitted. -/
inductive Validator : Type
  | anyV
  | number (v : NumberV)
  | string (v : StringV)
  | collectionNone (c : CollConstraints)
  | collectionSingle (c : CollConstraints) (item : Validator)
  | collectionTuple (c : CollConstraints) (items : List Validator)
  | union (vs : List Validator) (mode : UnionMode)
  | object (fields : List (String × Validator)) (c : ObjConstraints)
      (required : List String)
  | literal (allowed : List PyVal)

/-- `isinstance(data, (list, tuple))`, exposing the elements. -/
def asSeq : PyVal → Option (List PyVal)
  | .list xs => some xs
  | .tuple xs => some xs
  | _ => Option.none

/-- `len(set(data)) != len(data)`, or the pairwise `data[i] == data[j]`
fallback for unhashable items — both decide exactly "some pair of elements is
Python-equal", which is what this computes. -/
def hasPyDup : List PyVal → Bool
  | [] => false
  | x :: rest => rest.any (fun y => pyEq x y) || hasPyDup rest

/-- The `min_items`/`max_items`/`unique` prologue of
`CollectionValidator.validate`, in source order. -/
def collChecks (c : CollConstraints) (xs : List PyVal) (path : String) :
    Except (List Entry) Unit := do
  optCheckN c.min_items (fun n => decide (xs.length < n)) Msg.minItems path
  optCheckN c.max_items (fun n => decide (n < xs.length)) Msg.maxItems path
  if c.unique && hasPyDup xs then throw [(path, Msg.duplicateItems)] else pure ()

mutual

/-- `Validator.validate(data, path)` of validators.py.  Failure is the raised
`ValidationError`, represented by its list of `(path, message)` entries. -/
def validate : Validator → PyVal → String → Except (List Entry) PyVal
  | .anyV, data, _ => .ok data
  | .number v, data, path => numberValidate v data path
  | .string v, data, path => stringValidate v data path
  | .literal allowed, data, path =>
    if allowed.any (fun a => pyEq data a) then .ok data
    else .error [(path, Msg.expectedOneOf allowed)]
  | .collectionNone c, data, path =>
    (match asSeq data with
     | some xs => do
       collChecks c xs path
       pure (.list xs)
     | Option.none => .error [(path, Msg.invalidType)])
  | .collectionSingle c v, data, path =>
    (match asSeq data with
     | some xs => do
       collChecks c xs path
       let ys ← validateEach v xs path 0
       pure (.list ys)
     | Option.none => .error [(path, Msg.invalidType)])
  | .collectionTuple c vs, data, path =>
    (match asSeq data with
     | some xs => do
       collChecks c xs path
       if xs.length ≠ vs.length then throw [(path, Msg.expectedNItems vs.length)]
       else do
         let ys ← validateZip vs xs path 0
         pure (.list ys)
     | Option.none => .error [(path, Msg.invalidType)])
  | .union vs mode, data, path =>
    let oks := (unionRunAll vs data path).filterMap Except.toOption
    (match mode with
     | .oneOf =>
       match oks with
       | [r] => .ok r
       | [] => .error [(path, Msg.noMatchOneOf)]
       | _ => .error [(path, Msg.multipleOneOf)]
     | .anyOf =>
       match oks with
       | r :: _ => .ok r
       | [] => .error [(path, Msg.noMatchUnion)])
  | .object fields c required, data, path =>
    (match data with
     | .dict kvs =>
       let missingEntries := (required.filter (fun k => !(containsKey kvs k))).map
         (fun k => (joinField path k, Msg.fieldRequired))
       let fdErrs := objectItems fields c.strictLike kvs path
       let minPropsEntries :=
         match c.min_properties with
         | some n =>
           if kvs.length < n then [(path, Msg.tooFewProperties n)] else []
         | Option.none => []
       let es := missingEntries ++ fdErrs.2 ++ minPropsEntries
       if es.isEmpty then .ok (.dict fdErrs.1) else .error es
     | _ => .error [(path, Msg.invalidType)])
termination_by v data _ => (sizeOf v, sizeOf data)
decreasing_by all_goals (simp_wf <;> omega)

/-- Per-element loop of `CollectionValidator.validate` for a single item
validator: the first failing element's error propagates as raised. -/
def validateEach (v : Validator) (xs : List PyVal) (path : String) (i : ℕ) :
    Except (List Entry) (List PyVal) :=
  match xs with
  | [] => .ok []
  | x :: rest => do
    let y ← validate v x (idxPath path i)
    let ys ← validateEach v rest path (i + 1)
    pure (y :: ys)
termination_by (sizeOf v, sizeOf xs)
decreasing_by all_goals (simp_wf <;> omega)

/-- Per-position loop (`zip(data, self.item_validator)`) for the tuple form. -/
def validateZip (vs : List Validator) (xs : List PyVal) (path : String) (i : ℕ) :
    Except (List Entry) (List PyVal) :=
  match vs, xs with
  | v :: vrest, x :: xrest => do
    let y ← validate v x (idxPath path i)
    let ys ← validateZip vrest xrest path (i + 1)
    pure (y :: ys)
  | _, _ => .ok []
termination_by (sizeOf vs, sizeOf xs)
decreasing_by all_goals (simp_wf <;> omega)

/-- `UnionValidator.validate` runs every alternative, collecting results. -/
def unionRunAll (vs : List Validator) (data : PyVal) (path : String) :
    List (Except (List Entry) PyVal) :=
  match vs with
  | [] => []
  | v :: rest => validate v data path :: unionRunAll rest data path
termination_by (sizeOf vs, sizeOf data)
decreasing_by all_goals (simp_wf <;> omega)

/-- `key in self.fields` dispatch fused with the field validation call. -/
def lookupValidate (fields : List (String × Validator)) (k : String)
    (val : PyVal) (path : String) : Option (Except (List Entry) PyVal) :=
  match fields with
  | [] => Option.none
  | (k2, fv) :: rest =>
    if k2 == k then some (validate fv val path) else lookupValidate rest k val path
termination_by (sizeOf fields, sizeOf val)
decreasing_by all_goals (simp_wf <;> omega)

/-- The `for key, value in data.items()` loop of `ObjectValidator.validate`:
declared fields are validated (errors extended into the aggregate), unknown
fields are rejected under `strict`/`additional_properties=False` or passed
through otherwise.  Returns (`final_data`, collected errors), both in data
order. -/
def objectItems (fields : List (String × Validator)) (strict : Bool)
    (kvs : List (String × PyVal)) (path : String) :
    List (String × PyVal) × List Entry :=
  match kvs with
  | [] => ([], [])
  | (k, val) :: rest =>
    let tail := objectItems fields strict rest path
    match lookupValidate fields k val (joinField path k) with
    | some (Except.ok y) => ((k, y) :: tail.1, tail.2)
    | some (Except.error es) => (tail.1, es ++ tail.2)
    | Option.none =>
      if strict then (tail.1, (joinField path k, Msg.extraFieldNotAllowed) :: tail.2)
      else ((k, val) :: tail.1, tail.2)
termination_by (sizeOf fields, sizeOf kvs)
decreasing_by all_goals (simp_wf <;> omega)

end

/-! ### The codegen backend (`codegen.py`)

`CodegenCompiler` lowers a schema into a flat procedure of inlined checks.
We model the semantics of the emitted code.  Its messages are distinct
format strings from the interpreted validators', so they get their own
structured message type. -/

/-- Messages interpolated by the code `CodegenCompiler` emits. -/
inductive CgMsg : Type
  | invalidType
  | expectedInteger
  | mustBeGE (m : ℚ)
  | mustBeLE (m : ℚ)
  | required
  | extraFieldsNotAllowed
  | minProperties (n : ℕ)
  | minLength (n : ℕ)
  | maxLength (n : ℕ)
  | patternMismatch
  | minItems (n : ℕ)
  | maxItems (n : ℕ)
  | duplicateItems
deriving Repr

abbrev CgEntry := String × CgMsg

/-- The numeric constraint dict as parsed from an `Annotated[int, ...]`
annotation and handed to either backend (values idealised as `ℚ`). -/
structure NumConstraints where
  cmin : Option ℚ
  cmax : Option ℚ
  cexclusive_min : Option ℚ
  cexclusive_max : Option ℚ
  cstep : Option ℚ
deriving Repr, DecidableEq

/-- `NumberValidator.__init__`: every constraint key is read into a field
(the `float(...)` conversions are identities in the `ℚ` idealisation). -/
def mkNumberV (t : NumberType) (c : NumConstraints) : NumberV :=
  ⟨t, c.cmin, c.cmax, c.cexclusive_min, c.cexclusive_max, c.cstep⟩

/-- Semantics of the code `CodegenCompiler._gen_number` emits (codegen.py
lines 111-134): type check, integer check for `int`, then checks only for
the `min` and `max` keys — the `exclusive_min`, `exclusive_max` and
`step`/`multiple_of` keys of the same constraint dict are never read by the
generator. -/
def cgNumberChecks (t : NumberType) (c : NumConstraints) (data : PyVal)
    (path : String) : Except (List CgEntry) Unit :=
  match toRat? data with
  | Option.none => .error [(path, CgMsg.invalidType)]
  | some q => do
    if t = .intT && isFloatNonIntegral data then
      throw [(path, CgMsg.expectedInteger)]
    (match c.cmin with
     | some m => if q < m then throw [(path, CgMsg.mustBeGE m)] else pure ()
     | Option.none => pure ())
    (match c.cmax with
     | some m => if m < q then throw [(path, CgMsg.mustBeLE m)] else pure ()
     | Option.none => pure ())

/-- A scalar compiled by codegen returns the input unchanged: the generated
`validate_X` ends in `return data` and performs no normalizing cast. -/
def cgNumberRun (t : NumberType) (c : NumConstraints) (data : PyVal)
    (path : String) : Except (List CgEntry) PyVal :=
  (cgNumberChecks t c data path).map (fun _ => data)

/-- String constraints read by `_gen_string` (truthy `min_length`/`min_len`,
`max_length`/`max_len`, `regex`/`pattern`). -/
structure CgStrC where
  minLen : Option ℕ
  maxLen : Option ℕ
  pattern : Option (String → Bool)

/-- Schema shapes the codegen model covers: annotated scalars, lists and
TypedDicts (each field tagged with its required flag). -/
inductive CgSchema : Type
  | cInt (c : NumConstraints)
  | cFloat (c : NumConstraints)
  | cStr (c : CgStrC)
  | cList (item : CgSchema) (minI maxI : Option ℕ) (unique : Bool)
  | cTypedDict (fields : List (String × Bool × CgSchema)) (strictLike : Bool)
      (minProps : Option ℕ)

/-- `data.get(key)`: Python returns `None` both for an absent key and for a
key bound to `None`. -/
def pyGet (kvs : List (String × PyVal)) (k : String) : PyVal :=
  match kvs with
  | [] => .none
  | (l, v) :: rest => if l == k then v else pyGet rest k

/-- Field paths in generated code: `_gen_object` emits `path + '.key'`
unconditionally (its `path != "''"` guard compares the *name* of the path
variable, which is never the literal `''`), so even top-level fields get a
leading-dot path. -/
def cgFieldPath (p k : String) : String := p ++ "." ++ k

mutual

/-- Semantics of the checking code `CodegenCompiler._generate_validator`
emits for a schema.  The emitted procedure only checks: it never rebuilds
the value, and the compiled entry point ends in `return data`. -/
def cgValidate : CgSchema → PyVal → String → Except (List CgEntry) Unit
  | .cInt c, data, path => cgNumberChecks .intT c data path
  | .cFloat c, data, path => cgNumberChecks .floatT c data path
  | .cStr c, data, path =>
    (match data with
     | .str s => do
       (match c.minLen with
        | some n => if s.length < n then throw [(path, CgMsg.minLength n)] else pure ()
        | Option.none => pure ())
       (match c.maxLen with
        | some n => if n < s.length then throw [(path, CgMsg.maxLength n)] else pure ()
        | Option.none => pure ())
       (match c.pattern with
        | some pr => if !(pr s) then throw [(path, CgMsg.patternMismatch)] else pure ()
        | Option.none => pure ())
     | _ => .error [(path, CgMsg.invalidType)])
  | .cList item minI maxI uniq, data, path =>
    (match data with
     | .list xs => do
       (match minI with
        | some n => if xs.length < n then throw [(path, CgMsg.minItems n)] else pure ()
        | Option.none => pure ())
       (match maxI with
        | some n => if n < xs.length then throw [(path, CgMsg.maxItems n)] else pure ()
        | Option.none => pure ())
       (if uniq && hasPyDup xs then throw [(path, CgMsg.duplicateItems)] else pure ())
       cgItems item xs path 0
     | _ => .error [(path, CgMsg.invalidType)])
  | .cTypedDict fields strictLike minProps, data, path =>
    (match data with
     | .dict kvs => do
       cgFields fields kvs path
       (if strictLike && (kvs.any (fun kv => !(fields.any (fun f => f.1 == kv.1)))) then
          throw [(path, CgMsg.extraFieldsNotAllowed)]
        else pure ())
       (match minProps with
        | some n => if kvs.length < n then throw [(path, CgMsg.minProperties n)] else pure ()
        | Option.none => pure ())
     | _ => .error [(path, CgMsg.invalidType)])
termination_by s data _ => (sizeOf s, sizeOf data)
decreasing_by all_goals (simp_wf <;> omega)

/-- The emitted per-index loop of `_gen_list`. -/
def cgItems (item : CgSchema) (xs : List PyVal) (path : String) (i : ℕ) :
    Except (List CgEntry) Unit :=
  match xs with
  | [] => pure ()
  | x :: rest => do
    cgValidate item x (idxPath path i)
    cgItems item rest path (i + 1)
termination_by (sizeOf item, sizeOf xs)
decreasing_by all_goals (simp_wf <;> omega)

/-- The emitted per-field sequence of `_gen_object`: `fv = data.get(key)`;
a required field raises `Required` when `fv is None` and is then validated;
an optional field is validated only when `fv is not None`. -/
def cgFields (fields : List (String × Bool × CgSchema))
    (kvs : List (String × PyVal)) (path : String) : Except (List CgEntry) Unit :=
  match fields with
  | [] => pure ()
  | (k, req, fsch) :: rest => do
    let fv := pyGet kvs k
    (if req then do
       (match fv with
        | .none => throw [(cgFieldPath path k, CgMsg.required)]
        | _ => pure ())
       cgValidate fsch fv (cgFieldPath path k)
     else
       (match fv with
        | .none => pure ()
        | _ => cgValidate fsch fv (cgFieldPath path k)))
    cgFields rest kvs path
termination_by (sizeOf fields, sizeOf kvs)
decreasing_by all_goals (simp_wf <;> omega)

end

/-- The compiled procedure `CodegenCompiler.compile` produces: run the
emitted checks with `path=''`, then `return data` — the original input,
unmodified. -/
def cgCompiled (s : CgSchema) (data : PyVal) : Except (List CgEntry) PyVal :=
  (cgValidate s data "").map (fun _ => data)

/-! ### Auxiliary and concrete definitions used by the claim theorems -/

/-- Key lookup alone, `key in self.fields` plus `self.fields[key]`. -/
def lookupField : List (String × Validator) → String → Option Validator
  | [], _ => Option.none
  | (k2, fv) :: rest, k => if k2 == k then some fv else lookupField rest k

/-- The rational 7/2, given in lowest terms so that its denominator is
syntactically `2`. -/
def sevenHalves : ℚ := ⟨7, 2, by norm_num, by norm_num⟩

/-- An `exclusive_min=5` constraint, as both backends receive it. -/
def c1Constraints : NumConstraints :=
  ⟨Option.none, Option.none, some 5, Option.none, Option.none⟩

def c6Inner : CgSchema :=
  .cTypedDict [("x", true,
    .cInt ⟨Option.none, Option.none, Option.none, Option.none, Option.none⟩)]
    false Option.none

/-- The `Outer` schema of `tests/test_strip.py` (one required nested record
field), as compiled by the codegen backend `Pytastic.validate` uses. -/
def c6Outer : CgSchema := .cTypedDict [("inner", true, c6Inner)] false Option.none

/-- The failing input of `test_runtime_strip_propagates_to_nested`. -/
def c6Data : PyVal :=
  .dict [("inner", .dict [("x", .int 1), ("extra_inner", .str "gone")]),
         ("extra_outer", .str "gone")]

def c10FloatV : NumberV :=
  ⟨.floatT, some 0, some 1, Option.none, Option.none, Option.none⟩

def c3Child : Validator :=
  .number ⟨.intT, Option.none, Option.none, Option.none, Option.none, Option.none⟩

def c3Seq : Validator := .collectionSingle ⟨Option.none, Option.none, false⟩ c3Child

def c5Validator : Validator :=
  .object [("k", .number ⟨.intT, Option.none, Option.none, Option.none,
    Option.none, Option.none⟩)] ⟨false, Option.none⟩ ["k"]

def c9Inner : Validator :=
  .collectionSingle ⟨Option.none, Option.none, false⟩
    (.number ⟨.intT, Option.none, Option.none, Option.none, Option.none, Option.none⟩)

def c9Outer : Validator := .collectionSingle ⟨Option.none, Option.none, true⟩ c9Inner

def c9Output : PyVal := .list [.list [.int 1], .list [.int 1]]

/-! `noUnique`: no collection in the tree carries the `unique` flag. -/

mutual

def noUnique : Validator → Bool
  | .anyV => true
  | .number _ => true
  | .string _ => true
  | .literal _ => true
  | .collectionNone c => !c.unique
  | .collectionSingle c v => !c.unique && noUnique v
  | .collectionTuple c vs => !c.unique && noUniqueList vs
  | .union vs _ => noUniqueList vs
  | .object fields _ _ => noUniqueFields fields
termination_by v => sizeOf v
decreasing_by all_goals (simp_wf <;> omega)

def noUniqueList : List Validator → Bool
  | [] => true
  | v :: rest => noUnique v && noUniqueList rest
termination_by vs => sizeOf vs
decreasing_by all_goals (simp_wf <;> omega)

def noUniqueFields : List (String × Validator) → Bool
  | [] => true
  | (_, v) :: rest => noUnique v && noUniqueFields rest
termination_by fs => sizeOf fs
decreasing_by all_goals (simp_wf <;> omega)

end

/-! `noUnion`: no union node occurs in the tree. -/

mutual

def noUnion : Validator → Bool
  | .anyV => true
  | .number _ => true
  | .string _ => true
  | .literal _ => true
  | .collectionNone _ => true
  | .collectionSingle _ v => noUnion v
  | .collectionTuple _ vs => noUnionList vs
  | .union _ _ => false
  | .object fields _ _ => noUnionFields fields
termination_by v => sizeOf v
decreasing_by all_goals (simp_wf <;> omega)

def noUnionList : List Validator → Bool
  | [] => true
  | v :: rest => noUnion v && noUnionList rest
termination_by vs => sizeOf vs
decreasing_by all_goals (simp_wf <;> omega)

def noUnionFields : List (String × Validator) → Bool
  | [] => true
  | (_, v) :: rest => noUnion v && noUnionFields rest
termination_by fs => sizeOf fs
decreasing_by all_goals (simp_wf <;> omega)

end

/-! ### The constraint parser (`utils.py`)

`parse_constraints` dispatches between a regex-driven simple parser
(`_parse_simple`) and a recursive complex parser (`_parse_complex`).
Neither function contains a single `raise`, so the model is a total
function.  Annotation strings are single-line, so the `.`/`$` regex
newline subtleties are not modelled.  The two recursions that are not
structural (the regex scan and `_parse_single_constraint`) are given
explicit fuel; every recursive call is on a strictly shorter string, so
fuel `length + 1` always suffices and the wrappers supply it. -/

/-- A parsed constraint value: a raw string or a converted boolean. -/
inductive CVal
  | s (v : String)
  | b (v : Bool)
deriving DecidableEq, Repr

/-- The constraint AST of `utils.py`: `LeafConstraint`,
`ConditionalConstraint`, `OrConstraint`, `NotConstraint`. -/
inductive ConstraintNode : Type
  | leaf (key : String) (value : CVal)
  | conditional (condition : String) (node : ConstraintNode)
  | orC (nodes : List ConstraintNode)
  | notC (node : ConstraintNode)

/-- `parse_constraints` returns a plain dict in the simple case or a node
list in the complex case. -/
inductive ParseResult : Type
  | simple (constraints : List (String × CVal))
  | complexL (nodes : List ConstraintNode)

/-- A character of the regex class `[^=;\s]`. -/
def isKeyChar (c : Char) : Bool := !(c = '=' || c = ';' || c.isWhitespace)

/-- Python `str.strip()` (whitespace from both ends). -/
def trimWs (cs : List Char) : List Char :=
  ((cs.dropWhile Char.isWhitespace).reverse.dropWhile Char.isWhitespace).reverse

/-- Python `str.strip("'")` (single quotes from both ends). -/
def stripQuotes (cs : List Char) : List Char :=
  ((cs.dropWhile (fun c => c = '\'')).reverse.dropWhile
    (fun c => c = '\'')).reverse

/-- Python `str.lower()` on the ASCII annotation strings in use. -/
def pyLower (s : String) : String := (s.toList.map Char.toLower).asString

/-- The `true`/`false` conversion applied by both parsers. -/
def boolConv (v : String) : CVal :=
  if pyLower v = "true" then CVal.b true
  else if pyLower v = "false" then CVal.b false
  else CVal.s v

/-- Python dict assignment `constraints[k] = v`: overwrite in place if the
key exists, else append. -/
def upsert (m : List (String × CVal)) (k : String) (v : CVal) :
    List (String × CVal) :=
  if m.any (fun p => p.1 = k) then
    m.map (fun p => if p.1 = k then (k, v) else p)
  else m ++ [(k, v)]

/-- One match of the `_parse_simple` regex
`([^=;\s]+)\s*=\s*'([^']*)'|([^=;\s]+)\s*=\s*([^;]+)|([^=;\s]+)`:
a quoted `k='v'`, a plain `k=v`, or a bare flag `k`. -/
inductive ClauseMatch
  | quotedKV (k v : String)
  | plainKV (k v : String)
  | flag (k : String)
deriving DecidableEq, Repr

/-- Attempt the `_parse_simple` regex at the current position: the three
alternatives in order, with their greedy character classes and the one
backtracking case regex engines exercise (an all-whitespace `[^;]+` value,
where `\s*` gives one character back).  Returns the match and the suffix
after the match end.  `none` exactly when no `[^=;\s]` character starts
here. -/
def matchAt (cs : List Char) : Option (ClauseMatch × List Char) :=
  let key := cs.takeWhile isKeyChar
  if key.isEmpty then Option.none
  else
    let r0 := cs.dropWhile isKeyChar
    let r1 := r0.dropWhile Char.isWhitespace
    match r1 with
    | '=' :: r2 =>
      let w := r2.takeWhile Char.isWhitespace
      let r3 := r2.dropWhile Char.isWhitespace
      let fallback :=
        let v := r3.takeWhile (fun c => !(c = ';'))
        if !v.isEmpty then
          some (ClauseMatch.plainKV key.asString v.asString,
            r3.dropWhile (fun c => !(c = ';')))
        else if !w.isEmpty then
          some (ClauseMatch.plainKV key.asString
            (String.mk [w.getLastD ' ']), r3)
        else some (ClauseMatch.flag key.asString, r0)
      (match r3 with
       | '\'' :: r4 =>
         (match r4.dropWhile (fun c => !(c = '\'')) with
          | '\'' :: r5 =>
            some (ClauseMatch.quotedKV key.asString
              (r4.takeWhile (fun c => !(c = '\''))).asString, r5)
          | _ => fallback)
       | _ => fallback)
    | _ => some (ClauseMatch.flag key.asString, r0)

/-- `re.finditer` over the `_parse_simple` pattern: try a match at each
position, resuming after a match end or advancing one character on
failure.  Every step consumes at least one character, so the caller's fuel
of `length + 1` is never exhausted. -/
def finditer : Nat → List Char → List ClauseMatch
  | 0, _ => []
  | _ + 1, [] => []
  | fuel + 1, c :: rest =>
    match matchAt (c :: rest) with
    | some (m, r) => m :: finditer fuel r
    | Option.none => finditer fuel rest

/-- The match-group dispatch inside `_parse_simple`'s loop: quoted values
stay raw strings, plain values get the `true`/`false` conversion, bare
flags become `True`. -/
def applyMatch (m : List (String × CVal)) : ClauseMatch → List (String × CVal)
  | ClauseMatch.quotedKV k v => upsert m k (CVal.s v)
  | ClauseMatch.plainKV k v => upsert m k (boolConv v)
  | ClauseMatch.flag k => upsert m k (CVal.b true)

/-- `_parse_simple`. -/
def parseSimple (text : String) : List (String × CVal) :=
  (finditer (text.toList.length + 1) text.toList).foldl applyMatch []

/-- The loop of `_split_respecting_quotes`: split on the delimiter outside
single quotes, accumulating the current part in reverse; a trailing empty
part is dropped (`if current: parts.append(...)`). -/
def splitRQGo (delim : Char) : List Char → Bool → List Char → List String
  | [], _, current =>
    if current.isEmpty then [] else [current.reverse.asString]
  | c :: rest, inQuote, current =>
    if inQuote then splitRQGo delim rest (!(c = '\'')) (c :: current)
    else if c = '\'' then splitRQGo delim rest true (c :: current)
    else if c = delim then
      current.reverse.asString :: splitRQGo delim rest false []
    else splitRQGo delim rest false (c :: current)

/-- `_split_respecting_quotes`. -/
def splitRQ (text : String) (delim : Char) : List String :=
  splitRQGo delim text.toList false []

/-- `_parse_single_constraint`, with fuel for the recursion through OR
parts, conditional results and `!`-stripped tails (each strictly shorter
than the input, so the wrapper's fuel suffices).  The conditional regex
`^([^?]+)\s*\?\s+(.+)$` succeeds exactly when a `?` is present, preceded
by at least one character and followed by a whitespace character plus at
least one more character; both groups are then stripped. -/
def parseSingleConstraint : Nat → String → ConstraintNode
  | 0, _ => ConstraintNode.leaf "" (CVal.b true)
  | fuel + 1, text =>
    let t := (trimWs text.toList).asString
    let subs := splitRQ t '|'
    if t.toList.contains '|' && decide (1 < subs.length) then
      ConstraintNode.orC (subs.map (fun s => parseSingleConstraint fuel s))
    else
      let pre := t.toList.takeWhile (fun c => !(c = '?'))
      let post := t.toList.drop (pre.length + 1)
      if t.toList.contains '?' && !pre.isEmpty &&
          decide (2 ≤ post.length) && (post.headD ' ').isWhitespace then
        ConstraintNode.conditional (trimWs pre).asString
          (parseSingleConstraint fuel (trimWs post).asString)
      else if t.toList.headD ' ' = '!' then
        ConstraintNode.notC (parseSingleConstraint fuel (t.drop 1))
      else
        let k := t.toList.takeWhile (fun c => !(c = '='))
        let v := t.toList.drop (k.length + 1)
        if t.toList.contains '=' && !k.isEmpty && !v.isEmpty then
          ConstraintNode.leaf (trimWs k).asString
            (boolConv (stripQuotes (trimWs v)).asString)
        else ConstraintNode.leaf t (CVal.b true)

/-- `_parse_single_constraint` with enough fuel for its input. -/
def parseSingle (text : String) : ConstraintNode :=
  parseSingleConstraint (text.toList.length + 1) text

/-- `_parse_complex`: split on top-level semicolons, strip each part, skip
empty parts, parse the rest. -/
def parseComplex (text : String) : List ConstraintNode :=
  ((((splitRQ text ';').map
      (fun p => (trimWs p.toList).asString)).filter
      (fun p => !p.isEmpty)).map parseSingle)

/-- Whether `"=="` occurs in the string (`"==" in annotation_str`). -/
def hasDoubleEq : List Char → Bool
  | '=' :: '=' :: _ => true
  | _ :: rest => hasDoubleEq rest
  | [] => false

/-- `parse_constraints`: empty string gives the empty dict; any of the
characters `?`, `!`, `|` or the substring `==` dispatches to the complex
parser; otherwise the simple parser runs. -/
def parseConstraints (text : String) : ParseResult :=
  if text.isEmpty then ParseResult.simple []
  else if text.toList.any (fun c => c = '?' || c = '!' || c = '|') ||
      hasDoubleEq text.toList then
    ParseResult.complexL (parseComplex text)
  else ParseResult.simple (parseSimple text)

/-! ### The schema compiler cache (`compiler.py`)

`SchemaCompiler.compile` memoizes on the descriptor (`if schema in
self._cache: return self._cache[schema]`), builds through
`_build_validator` — whose recursion into child descriptors goes back
through `self.compile` — and inserts the result before returning it.
Typing descriptors compare structurally (`List[int] == List[int]` is a
cache hit) while `TypedDict` classes compare nominally, so `Schema` trees
carry a class name for the latter and equality is the structural
`schemaBEq` below.  The compiled output `CValidator` records the
constructor calls of `_build_validator` with the argument values it
passes; the state also logs, in `builds`, every descriptor
`_build_validator` is entered on, which is what "compiled at most once"
is stated about.  As shipped, `compiler.py` cannot even be imported (it
imports `ConditionalValidator`, `OrValidator` and `NotValidator`, which
`validators.py` does not define), so the wrapper path
(`_build_complex_validator`/`_node_to_validator`) is modelled as storing
the parsed wrapper nodes, and the `contains` re-compilation and the
`conditional_required` string scan — neither of which touches the cache
logic under scrutiny — as stored data; everything else follows
`_build_validator` branch by branch. -/

/-- A `Literal[...]` argument. -/
inductive LitVal
  | s (v : String)
  | i (n : Int)
  | b (v : Bool)
  | nil
deriving DecidableEq, Repr

/-- A schema descriptor: the Python type objects `_build_validator`
dispatches on. -/
inductive Schema : Type
  | sInt
  | sFloat
  | sStr
  | sBool
  | sAnyT
  | sNoneT
  | sLit (vals : List LitVal)
  | sAnnotated (base : Schema) (anns : List String)
  | sList (item : Schema)
  | sTuple (items : List Schema)
  | sUnion (alts : List Schema)
  | sNotRequired (inner : Schema)
  | sTypedDict (name : String) (fields : List (String × Schema))
      (requiredKeys : List String)

/-- The validator objects `_build_validator` constructs, recording each
class's constructor arguments as passed. -/
inductive CValidator : Type
  | anyVC
  | numberVC (constraints : List (String × CVal)) (isInt : Bool)
  | stringVC (constraints : List (String × CVal))
  | collectionVC (constraints : List (String × CVal)) (item : CValidator)
      (containsC : Option CVal)
  | tupleVC (constraints : List (String × CVal)) (items : List CValidator)
  | unionVC (alts : List CValidator) (oneOf : Bool)
      (metadata : List (String × CVal))
  | literalVC (vals : List LitVal) (metadata : List (String × CVal))
  | objectVC (fields : List (String × CValidator))
      (constraints : List (String × CVal)) (required : List String)
  | compositeVC (base : CValidator) (wrappers : List ConstraintNode)

/-! Structural equality of descriptors (Python `==`/dict-key equality on
typing constructs; the `name` component carries `TypedDict` nominality). -/

mutual

def schemaBEq : Schema → Schema → Bool
  | .sInt, .sInt => true
  | .sFloat, .sFloat => true
  | .sStr, .sStr => true
  | .sBool, .sBool => true
  | .sAnyT, .sAnyT => true
  | .sNoneT, .sNoneT => true
  | .sLit vs, .sLit ws => vs == ws
  | .sAnnotated b1 a1, .sAnnotated b2 a2 => schemaBEq b1 b2 && a1 == a2
  | .sList i1, .sList i2 => schemaBEq i1 i2
  | .sTuple t1, .sTuple t2 => schemaBEqList t1 t2
  | .sUnion u1, .sUnion u2 => schemaBEqList u1 u2
  | .sNotRequired i1, .sNotRequired i2 => schemaBEq i1 i2
  | .sTypedDict n1 f1 r1, .sTypedDict n2 f2 r2 =>
      n1 == n2 && schemaBEqFields f1 f2 && r1 == r2
  | _, _ => false
termination_by a b => sizeOf a
decreasing_by all_goals (simp_wf <;> omega)

def schemaBEqList : List Schema → List Schema → Bool
  | [], [] => true
  | a :: as1, b :: bs => schemaBEq a b && schemaBEqList as1 bs
  | _, _ => false
termination_by a b => sizeOf a
decreasing_by all_goals (simp_wf <;> omega)

def schemaBEqFields :
    List (String × Schema) → List (String × Schema) → Bool
  | [], [] => true
  | (k1, v1) :: r1, (k2, v2) :: r2 =>
      k1 == k2 && schemaBEq v1 v2 && schemaBEqFields r1 r2
  | _, _ => false
termination_by a b => sizeOf a
decreasing_by all_goals (simp_wf <;> omega)

end

/-- The compiler's mutable state: the memoization cache (a dict keyed by
descriptors, modelled as an association list in insertion order) and a
log of the descriptors `_build_validator` has been entered on. -/
structure CompState where
  cache : List (Schema × CValidator)
  builds : List Schema

/-- `schema in self._cache` / `self._cache[schema]`. -/
def lookupC (cache : List (Schema × CValidator)) (d : Schema) :
    Option CValidator :=
  match cache with
  | [] => Option.none
  | (k, v) :: rest => if schemaBEq k d then some v else lookupC rest d

/-- `self._cache[schema] = validator`: Python dict assignment overwrites
an existing key in place and otherwise appends in insertion order. -/
def insertC (cache : List (Schema × CValidator)) (d : Schema)
    (v : CValidator) : List (Schema × CValidator) :=
  if (lookupC cache d).isSome then
    cache.map (fun p => if schemaBEq p.1 d then (p.1, v) else p)
  else cache ++ [(d, v)]

/-- Lookup in a constraints dict. -/
def lookupCV : List (String × CVal) → String → Option CVal
  | [], _ => Option.none
  | (k1, v) :: rest, k => if k1 = k then some v else lookupCV rest k

/-- Python truthiness of `constraints.get(key)`. -/
def cvTruthy : Option CVal → Bool
  | Option.none => false
  | some (CVal.b b) => b
  | some (CVal.s s) => !s.isEmpty

/-- The split `_build_validator` performs on a parsed annotation: a dict
parse is the constraints with no wrappers; a node-list parse folds
`LeafConstraint`s into the constraints dict and collects the other nodes
as wrappers. -/
def splitParsed : ParseResult → List (String × CVal) × List ConstraintNode
  | ParseResult.simple cs => (cs, [])
  | ParseResult.complexL nodes =>
    nodes.foldl (fun acc node =>
      match node with
      | ConstraintNode.leaf k v => (upsert acc.1 k v, acc.2)
      | w => (acc.1, acc.2 ++ [w])) ([], [])

/-- `constraint_str`: the string metadata arguments joined with `;`. -/
def annString (anns : List String) : String :=
  String.join (anns.map (fun a => a ++ ";"))

/-- Lookup of a field annotation in a `TypedDict`'s hints. -/
def lookupF : List (String × Schema) → String → Option Schema
  | [], _ => Option.none
  | (k1, v) :: rest, k => if k1 = k then some v else lookupF rest k

/-- `_compile_typeddict`'s handling of the `_` meta field: if it is an
`Annotated` hint, its parsed constraints update the dict —
`LeafConstraint`s only in the complex case (the `conditional_required`
extraction compiles nothing and is not modelled). -/
def tdConstraints (constraints0 : List (String × CVal))
    (fields : List (String × Schema)) : List (String × CVal) :=
  match lookupF fields "_" with
  | some (Schema.sAnnotated _ manns) =>
    (match parseConstraints (annString manns) with
     | ParseResult.simple cs =>
       cs.foldl (fun acc p => upsert acc p.1 p.2) constraints0
     | ParseResult.complexL nodes =>
       nodes.foldl (fun acc node =>
         match node with
         | ConstraintNode.leaf k v => upsert acc k v
         | _ => acc) constraints0)
  | _ => constraints0

mutual

/-- `SchemaCompiler.compile` (lines 26–33): cache hit returns the cached
validator unchanged; otherwise `_build_validator` runs (logged in
`builds`) and the result is inserted before being returned. -/
def compileS (d : Schema) (st : CompState) : CValidator × CompState :=
  match lookupC st.cache d with
  | some v => (v, st)
  | Option.none =>
    match buildValidator d { st with builds := st.builds ++ [d] } with
    | (v, st1) => (v, { st1 with cache := insertC st1.cache d v })
termination_by (sizeOf d, 3)
decreasing_by all_goals (simp_wf <;> omega)

/-- `_build_validator`: the non-`Annotated` dispatch.  Children go back
through `self.compile`. -/
def buildValidator (d : Schema) (st : CompState) : CValidator × CompState :=
  match d with
  | .sAnnotated base anns =>
    (match splitParsed (parseConstraints (annString anns)) with
     | (constraints, wrappers) =>
       (match buildAnnotated base constraints st with
        | (bv, st1) =>
          if wrappers.isEmpty then (bv, st1)
          else (CValidator.compositeVC bv wrappers, st1)))
  | .sTypedDict _ fields reqd => compileTypedDict fields reqd [] st
  | .sList item =>
    (match compileS item st with
     | (iv, st1) => (CValidator.collectionVC [] iv Option.none, st1))
  | .sTuple items =>
    (match compileList items st with
     | (ivs, st1) => (CValidator.tupleVC [] ivs, st1))
  | .sUnion alts =>
    (match compileList alts st with
     | (vs, st1) => (CValidator.unionVC vs false [], st1))
  | .sLit vals => (CValidator.literalVC vals [], st)
  | .sNotRequired inner => compileS inner st
  | .sInt => (CValidator.numberVC [] true, st)
  | .sFloat => (CValidator.numberVC [] false, st)
  | .sStr => (CValidator.stringVC [], st)
  | .sBool => (CValidator.anyVC, st)
  | .sAnyT => (CValidator.anyVC, st)
  | .sNoneT => (CValidator.literalVC [LitVal.nil] [], st)
termination_by (sizeOf d, 2)
decreasing_by all_goals (simp_wf <;> omega)

/-- `_build_validator`: the `Annotated` base-type dispatch.  The `contains`
constraint of a list is stored rather than re-compiled (see the section
comment); every other child compilation is `self.compile`. -/
def buildAnnotated (base : Schema) (constraints : List (String × CVal))
    (st : CompState) : CValidator × CompState :=
  match base with
  | .sInt => (CValidator.numberVC constraints true, st)
  | .sFloat => (CValidator.numberVC constraints false, st)
  | .sStr => (CValidator.stringVC constraints, st)
  | .sList item =>
    (match compileS item st with
     | (iv, st1) =>
       (CValidator.collectionVC constraints iv
         (lookupCV constraints "contains"), st1))
  | .sTuple items =>
    (match compileList items st with
     | (ivs, st1) => (CValidator.tupleVC constraints ivs, st1))
  | .sUnion alts =>
    (match compileList alts st with
     | (vs, st1) =>
       (CValidator.unionVC vs (cvTruthy (lookupCV constraints "one_of"))
         constraints, st1))
  | .sLit vals => (CValidator.literalVC vals constraints, st)
  | .sTypedDict _ fields reqd => compileTypedDict fields reqd constraints st
  | b => compileS b st
termination_by (sizeOf base, 4)
decreasing_by all_goals (simp_wf <;> omega)

/-- `_compile_typeddict`: compile every field hint except the `_` meta
field through `self.compile`; required keys come from the class. -/
def compileTypedDict (fields : List (String × Schema)) (reqd : List String)
    (constraints : List (String × CVal)) (st : CompState) :
    CValidator × CompState :=
  match compileFieldsC fields st with
  | (fvs, st1) =>
    (CValidator.objectVC fvs (tdConstraints constraints fields) reqd, st1)
termination_by (sizeOf fields, 1)
decreasing_by all_goals (simp_wf <;> omega)

/-- The field loop of `_compile_typeddict` (`if key == '_': continue`). -/
def compileFieldsC (fs : List (String × Schema)) (st : CompState) :
    List (String × CValidator) × CompState :=
  match fs with
  | [] => ([], st)
  | (k, v) :: rest =>
    if k = "_" then compileFieldsC rest st
    else
      match compileS v st with
      | (cv, st1) =>
        (match compileFieldsC rest st1 with
         | (cvs, st2) => ((k, cv) :: cvs, st2))
termination_by (sizeOf fs, 0)
decreasing_by all_goals (simp_wf <;> omega)

/-- The child list compilations `[self.compile(t) for t in ...]`. -/
def compileList (ds : List Schema) (st : CompState) :
    List CValidator × CompState :=
  match ds with
  | [] => ([], st)
  | d :: rest =>
    match compileS d st with
    | (v, st1) =>
      (match compileList rest st1 with
       | (vs, st2) => (v :: vs, st2))
termination_by (sizeOf ds, 0)
decreasing_by all_goals (simp_wf <;> omega)

end

/-- One compiler step extends the state: the cache grows by entries whose
keys are bounded in size, the build log grows in lockstep with the new
cache keys (every build inserts exactly its own descriptor), and
duplicate-freeness of the cache keys is preserved. -/
def CacheExt (st st' : CompState) (bound : Nat) : Prop :=
  ∃ ext bext, st'.cache = st.cache ++ ext ∧ st'.builds = st.builds ++ bext ∧
    (∀ p ∈ ext, sizeOf p.1 < bound) ∧ bext.Perm (ext.map Prod.fst) ∧
    ((st.cache.map Prod.fst).Nodup → (st'.cache.map Prod.fst).Nodup)

/-! ### Reduction helpers for the `Except` monad -/

@[simp] theorem except_ok_bind {E A B : Type} (x : A) (f : A → Except E B) :
    (Except.ok x : Except E A) >>= f = f x := rfl

@[simp] theorem except_error_bind {E A B : Type} (e : E) (f : A → Except E B) :
    (Except.error e : Except E A) >>= f = Except.error e := rfl

@[simp] theorem except_map_ok {E A B : Type} (f : A → B) (x : A) :
    f <$> (Except.ok x : Except E A) = Except.ok (f x) := rfl

@[simp] theorem except_map_error {E A B : Type} (f : A → B) (e : E) :
    f <$> (Except.error e : Except E A) = Except.error e := rfl

@[simp] theorem except_mapf_ok {E A B : Type} (f : A → B) (x : A) :
    Except.map f (Except.ok x : Except E A) = Except.ok (f x) := rfl

@[simp] theorem except_mapf_error {E A B : Type} (f : A → B) (e : E) :
    Except.map f (Except.error e : Except E A) = Except.error e := rfl

@[simp] theorem except_throw_eq {E A : Type} (e : E) :
    (throw e : Except E A) = Except.error e := rfl

@[simp] theorem except_pure_eq {E A : Type} (x : A) :
    (pure x : Except E A) = Except.ok x := rfl

@[simp] theorem except_toOption_ok {E A : Type} (x : A) :
    (Except.ok x : Except E A).toOption = some x := rfl

@[simp] theorem except_toOption_error {E A : Type} (e : E) :
    (Except.error e : Except E A).toOption = Option.none := rfl

/-! ## Claims -/

/-! ### C1: backend equivalence -/

/-- C1 (refuted): the interpreted `NumberValidator` enforces `exclusive_min`
and rejects `5`, while the procedure `_gen_number` emits for the very same
constraint dict never reads the `exclusive_min` key and accepts `5`
unchanged — so the two backends do not agree on acceptance for every input. -/
theorem c1_backends_disagree_on_exclusive_min :
    validate (.number (mkNumberV .intT c1Constraints)) (.int 5) ""
      = .error [("", Msg.mustBeGT 5)]
    ∧ cgNumberRun .intT c1Constraints (.int 5) "" = .ok (.int 5) := by
  constructor
  · simp [validate, c1Constraints, mkNumberV, numberValidate, toRat?,
      isFloatNonIntegral, optCheck]
  · simp [cgNumberRun, cgNumberChecks, c1Constraints, toRat?, isFloatNonIntegral]

/-! ### C6: runtime strip -/

/-- C6 (code bug): the procedure the codegen backend emits has no strip
logic at all — it validates in place and returns the input unchanged, so
both unknown fields survive.  (Moreover `Pytastic.validate` passes
`strip=strip` to `CodegenCompiler.compile`, whose signature has no such
parameter, so every `Pytastic.validate` call raises `TypeError` before
validation even starts.) -/
theorem c6_codegen_retains_unknown_fields :
    cgCompiled c6Outer c6Data = .ok c6Data := by
  simp [cgCompiled, c6Outer, c6Inner, c6Data, cgValidate, cgFields,
    cgNumberChecks, pyGet, cgFieldPath, toRat?, isFloatNonIntegral]

/-! ### C10: booleans through the number validator -/

/-- C10 (refuted as stated): a float-typed `NumberValidator` whose bounds
permit `0` and `1` accepts `True`, but normalizes it to the float `1.0`,
not the integer `1`. -/
theorem c10_counterexample :
    validate (.number c10FloatV) (.bool true) "" = .ok (.float 1)
    ∧ PyVal.float 1 ≠ PyVal.int 1 := by
  constructor
  · norm_num [validate, c10FloatV, numberValidate, toRat?, isFloatNonIntegral,
      optCheck, castNumber]
  · intro h
    exact PyVal.noConfusion h

/-- `optCheck` either passes or fails with its single entry. -/
theorem optCheck_cases (o : Option ℚ) (viol : ℚ → Bool) (msg : ℚ → Msg)
    (path : String) :
    optCheck o viol msg path = .ok ()
    ∨ ∃ m, o = some m ∧ viol m = true
        ∧ optCheck o viol msg path = .error [(path, msg m)] := by
  rcases o with _ | m
  · left
    rfl
  · by_cases h : viol m = true
    · right
      exact ⟨m, rfl, h, by simp [optCheck, h]⟩
    · left
      simp [optCheck, h]

/-- If `numberValidate` succeeds on numeric data with value `q`, the result
is exactly the cast `self.number_type(val)`. -/
theorem numberValidate_ok_shape (v : NumberV) (data : PyVal) (path : String)
    (q : ℚ) (y : PyVal) (hq : toRat? data = some q)
    (h : numberValidate v data path = .ok y) :
    y = castNumber v.numberType q := by
  unfold numberValidate at h
  rw [hq] at h
  by_cases h1 : (v.numberType = NumberType.intT && isFloatNonIntegral data) = true
  · simp [h1] at h
  · simp only [h1, Bool.false_eq_true, if_false, bind, Except.bind] at h
    rcases optCheck_cases v.min_val (fun m => decide (q < m)) Msg.mustBeGE path with
      h2 | ⟨m, _, _, h2⟩ <;> rw [h2] at h
    case _ =>
      rcases optCheck_cases v.max_val (fun m => decide (m < q)) Msg.mustBeLE path with
        h3 | ⟨m, _, _, h3⟩ <;> rw [h3] at h
      case _ =>
        rcases optCheck_cases v.exclusive_min_val (fun m => decide (q ≤ m))
            Msg.mustBeGT path with h4 | ⟨m, _, _, h4⟩ <;> rw [h4] at h
        case _ =>
          rcases optCheck_cases v.exclusive_max_val (fun m => decide (m ≤ q))
              Msg.mustBeLT path with h5 | ⟨m, _, _, h5⟩ <;> rw [h5] at h
          case _ =>
            rcases optCheck_cases v.step_val
                (fun s => !(isclose (pymod q s) 0 || isclose (pymod q s) s))
                Msg.mustBeMultipleOf path with h6 | ⟨m, _, _, h6⟩ <;> rw [h6] at h
            case _ =>
              simp [pure, Except.pure] at h
              exact h.symm
            all_goals exact Except.noConfusion h
          all_goals exact Except.noConfusion h
        all_goals exact Except.noConfusion h
      all_goals exact Except.noConfusion h
    all_goals exact Except.noConfusion h

/-- Booleans run through `NumberValidator.validate` exactly as their numeric
value does: `isinstance(True, int)` holds in Python. -/
theorem numberValidate_bool_eq_int (v : NumberV) (b : Bool) (path : String) :
    numberValidate v (.bool b) path
      = numberValidate v (.int (if b then 1 else 0)) path := by
  cases b <;> simp [numberValidate, toRat?, isFloatNonIntegral]

/-- C10 (amended): boolean inputs always pass the number type check, and any
Number validator accepting the corresponding numeric value accepts the
boolean and normalizes it with the validator's own numeric type: int-typed
validators produce the integers `1`/`0`, float-typed ones the floats
`1.0`/`0.0`. -/
theorem c10_amended (v : NumberV) (b : Bool) (path : String) (y : PyVal)
    (hacc : validate (.number v) (.int (if b then 1 else 0)) path = .ok y) :
    validate (.number v) (.bool b) path
        = .ok (castNumber v.numberType (if b then 1 else 0))
      ∧ (v.numberType = .intT →
          castNumber v.numberType (if b then (1 : ℚ) else 0)
            = .int (if b then 1 else 0))
      ∧ (v.numberType = .floatT →
          castNumber v.numberType (if b then (1 : ℚ) else 0)
            = .float (if b then 1 else 0)) := by
  simp only [validate] at hacc ⊢
  have hq : toRat? (.int (if b then 1 else 0)) = some (if b then 1 else 0) := by
    cases b <;> simp [toRat?]
  have hshape := numberValidate_ok_shape v _ path _ y hq hacc
  refine ⟨?_, ?_, ?_⟩
  · rw [numberValidate_bool_eq_int, hacc, hshape]
  · intro ht
    cases b <;> simp [ht, castNumber, pyIntOfRat]
  · intro ht
    cases b <;> simp [ht, castNumber]

/-- Witness for C10 (amended): an int-typed validator with bounds `0..1`. -/
theorem c10_witness :
    validate (.number ⟨.intT, some 0, some 1, Option.none, Option.none,
        Option.none⟩) (.bool true) "" = .ok (.int 1) := by
  have h := c10_amended
    ⟨.intT, some 0, some 1, Option.none, Option.none, Option.none⟩ true "" (.int 1)
    (by norm_num [validate, numberValidate, toRat?, isFloatNonIntegral, optCheck,
      castNumber, pyIntOfRat])
  rw [h.1]
  norm_num [castNumber, pyIntOfRat]

/-! ### C2: number bounds and step tolerance -/

theorem isclose_zero_of_abs_le {a : ℚ} (h : |a| ≤ 1 / 1000000000) :
    isclose a 0 = true := by
  simp only [isclose, sub_zero, decide_eq_true_eq]
  exact le_trans h (le_max_right _ _)

theorem isclose_of_abs_sub_le {a s : ℚ} (h : |a - s| ≤ 1 / 1000000000) :
    isclose a s = true := by
  simp only [isclose, decide_eq_true_eq]
  exact le_trans h (le_max_right _ _)

/-- C2: for a Number validator with inclusive bounds `min`/`max` and a step
(and no exclusive bounds), (1) every numeric input in range whose remainder
modulo the step is within `1e-9` of `0` or of the step is accepted and
normalized with the validator's cast; (2) an input strictly below `min` is
rejected with a single range entry at the value's path carrying `min`;
(3) an int-typed validator rejects non-integral float input.  (For an
int-typed validator, (1) and (2) speak of inputs passing its integrality
check, which (3) states separately, as the claim does.) -/
theorem c2_number_bounds_and_step (v : NumberV) (m M s : ℚ) (path : String)
    (hmin : v.min_val = some m) (hmax : v.max_val = some M)
    (hexmin : v.exclusive_min_val = Option.none)
    (hexmax : v.exclusive_max_val = Option.none)
    (hstep : v.step_val = some s) :
    (∀ (x : PyVal) (q : ℚ), toRat? x = some q →
      (v.numberType = .intT → isFloatNonIntegral x = false) →
      m ≤ q → q ≤ M →
      (|pymod q s| ≤ 1 / 1000000000 ∨ |pymod q s - s| ≤ 1 / 1000000000) →
      validate (.number v) x path = .ok (castNumber v.numberType q))
    ∧ (∀ (x : PyVal) (q : ℚ), toRat? x = some q →
      (v.numberType = .intT → isFloatNonIntegral x = false) →
      q < m →
      validate (.number v) x path = .error [(path, Msg.mustBeGE m)])
    ∧ (∀ q : ℚ, v.numberType = .intT → q.den ≠ 1 →
      validate (.number v) (.float q) path
        = .error [(path, Msg.expectedInteger)]) := by
  refine ⟨?_, ?_, ?_⟩
  · intro x q hq hint h1 h2 h3
    have hbool : (decide (v.numberType = NumberType.intT) && isFloatNonIntegral x)
        = false := by
      cases ht : v.numberType with
      | intT => simp [hint ht]
      | floatT => simp [ht]
    have hstepOk : (!(isclose (pymod q s) 0 || isclose (pymod q s) s)) = false := by
      rcases h3 with h3 | h3
      · simp [isclose_zero_of_abs_le h3]
      · simp [isclose_of_abs_sub_le h3]
    simp [validate, numberValidate, hq, hmin, hmax, hexmin, hexmax, hstep,
      optCheck, hbool, not_lt.mpr h1, not_lt.mpr h2, hstepOk]
  · intro x q hq hint h1
    have hbool : (decide (v.numberType = NumberType.intT) && isFloatNonIntegral x)
        = false := by
      cases ht : v.numberType with
      | intT => simp [hint ht]
      | floatT => simp [ht]
    simp [validate, numberValidate, hq, hmin, optCheck, hbool, h1]
  · intro q ht hden
    have hbool : (decide (v.numberType = NumberType.intT)
        && isFloatNonIntegral (.float q)) = true := by
      simp [ht, isFloatNonIntegral, hden]
    simp [validate, numberValidate, toRat?, hbool]

/-- Witness for C2: `int[min=18, max=120, step=1]` accepts 20, rejects 17
below the minimum with the `>= 18` message, and rejects the float `3.5`. -/
theorem c2_witness :
    validate (.number ⟨.intT, some 18, some 120, Option.none, Option.none, some 1⟩)
        (.int 20) "age" = .ok (.int 20)
    ∧ validate (.number ⟨.intT, some 18, some 120, Option.none, Option.none, some 1⟩)
        (.int 17) "age" = .error [("age", Msg.mustBeGE 18)]
    ∧ validate (.number ⟨.intT, some 18, some 120, Option.none, Option.none, some 1⟩)
        (.float sevenHalves) "age" = .error [("age", Msg.expectedInteger)] := by
  have h := c2_number_bounds_and_step
    ⟨.intT, some 18, some 120, Option.none, Option.none, some 1⟩
    18 120 1 "age" rfl rfl rfl rfl rfl
  refine ⟨?_, ?_, ?_⟩
  · have hmod : pymod 20 1 = 0 := by
      norm_num [pymod]
    have h1 := h.1 (.int 20) 20 (by norm_num [toRat?]) (fun _ => rfl)
      (by norm_num) (by norm_num) (Or.inl (by rw [hmod]; norm_num))
    rw [h1]
    norm_num [castNumber, pyIntOfRat]
  · exact h.2.1 (.int 17) 17 (by norm_num [toRat?]) (fun _ => rfl) (by norm_num)
  · exact h.2.2 sevenHalves rfl (by norm_num [sevenHalves])

/-! ### C4: union modes -/

theorem unionRunAll_eq_map (vs : List Validator) (d : PyVal) (p : String) :
    unionRunAll vs d p = vs.map (fun v => validate v d p) := by
  induction vs with
  | nil => simp [unionRunAll]
  | cons v rest ih => simp [unionRunAll, ih]

theorem filterMap_toOption_nil (rs : List (Except (List Entry) PyVal))
    (h : ∀ r ∈ rs, ∃ es, r = .error es) :
    rs.filterMap Except.toOption = [] := by
  induction rs with
  | nil => rfl
  | cons r rest ih =>
    rcases h r (by simp) with ⟨es, rfl⟩
    simp [List.filterMap_cons, ih (fun r hr => h r (by simp [hr]))]

theorem filterMap_toOption_first (rs : List (Except (List Entry) PyVal)) :
    ∀ (i : ℕ) (hi : i < rs.length) (r : PyVal),
      rs.get ⟨i, hi⟩ = .ok r →
      (∀ (j : ℕ) (hj : j < i), ∃ es, rs.get ⟨j, by omega⟩ = .error es) →
      ∃ rest, rs.filterMap Except.toOption = r :: rest := by
  induction rs with
  | nil => intro i hi; simp at hi
  | cons x rest ih =>
    intro i hi r hget hprev
    cases i with
    | zero =>
      simp only [List.get] at hget
      subst hget
      exact ⟨rest.filterMap Except.toOption, by simp [List.filterMap_cons]⟩
    | succ n =>
      rcases (by simpa using hprev 0 (by omega) : ∃ es, x = Except.error es) with
        ⟨es, rfl⟩
      rcases ih n (by simpa using hi) r (by simpa using hget)
          (fun j hj => by simpa using hprev (j + 1) (by omega)) with ⟨tail, htail⟩
      exact ⟨tail, by simp [List.filterMap_cons, htail]⟩

theorem filterMap_toOption_single (rs : List (Except (List Entry) PyVal)) :
    ∀ (i : ℕ) (hi : i < rs.length) (r : PyVal),
      rs.get ⟨i, hi⟩ = .ok r →
      (∀ (j : ℕ) (hj : j < rs.length), j ≠ i → ∃ es, rs.get ⟨j, hj⟩ = .error es) →
      rs.filterMap Except.toOption = [r] := by
  induction rs with
  | nil => intro i hi; simp at hi
  | cons x rest ih =>
    intro i hi r hget hothers
    cases i with
    | zero =>
      simp only [List.get] at hget
      subst hget
      have hrest : rest.filterMap Except.toOption = [] := by
        apply filterMap_toOption_nil
        intro e he
        rcases List.mem_iff_get.mp he with ⟨⟨j, hj⟩, rfl⟩
        rcases hothers (j + 1) (by simpa using Nat.succ_lt_succ hj) (by omega) with
          ⟨es, hes⟩
        exact ⟨es, by simpa using hes⟩
      simp [List.filterMap_cons, hrest]
    | succ n =>
      rcases (by simpa using hothers 0 (by omega) (by omega) :
          ∃ es, x = Except.error es) with ⟨es, rfl⟩
      have := ih n (by simpa using hi) r (by simpa using hget)
        (fun j hj hne => by
          simpa using hothers (j + 1) (by simpa using Nat.succ_lt_succ hj)
            (by omega))
      simp [List.filterMap_cons, this]

theorem mem_filterMap_toOption_of_ok (rs : List (Except (List Entry) PyVal))
    (i : ℕ) (hi : i < rs.length) (r : PyVal) (h : rs.get ⟨i, hi⟩ = .ok r) :
    r ∈ rs.filterMap Except.toOption := by
  apply List.mem_filterMap.mpr
  exact ⟨.ok r, by rw [← h]; exact rs.get_mem _ _, rfl⟩

theorem filterMap_toOption_two (rs : List (Except (List Entry) PyVal)) :
    ∀ (i j : ℕ) (hi : i < rs.length) (hj : j < rs.length) (ri rj : PyVal),
      i < j → rs.get ⟨i, hi⟩ = .ok ri → rs.get ⟨j, hj⟩ = .ok rj →
      2 ≤ (rs.filterMap Except.toOption).length := by
  induction rs with
  | nil => intro i j hi; simp at hi
  | cons x rest ih =>
    intro i j hi hj ri rj hij hgi hgj
    cases i with
    | zero =>
      simp only [List.get] at hgi
      subst hgi
      cases j with
      | zero => omega
      | succ n =>
        have hmem : rj ∈ rest.filterMap Except.toOption :=
          mem_filterMap_toOption_of_ok rest n (by simpa using hj) rj
            (by simpa using hgj)
        have hpos : 0 < (rest.filterMap Except.toOption).length :=
          List.length_pos.mpr (List.ne_nil_of_mem hmem)
        simp only [List.filterMap_cons, except_toOption_ok, List.length_cons]
        omega
    | succ n =>
      cases j with
      | zero => omega
      | succ p =>
        have := ih n p (by simpa using hi) (by simpa using hj) ri rj (by omega)
          (by simpa using hgi) (by simpa using hgj)
        cases hx : Except.toOption x with
        | none => simpa [List.filterMap_cons, hx] using this
        | some a =>
          simp only [List.filterMap_cons, hx, List.length_cons]
          omega

/-- C4: union semantics.  In `any_of` mode the result is the first accepting
alternative's result in declared order (even if later ones also accept), and
no accepting alternative yields the no-match error.  In `one_of` mode a
unique accepting alternative yields its result, zero yields the no-match
error, and two accepting alternatives yield the distinct ambiguous-match
error. -/
theorem c4_union_modes (vs : List Validator) (d : PyVal) (p : String) :
    (∀ (i : ℕ) (hi : i < vs.length) (r : PyVal),
      validate (vs.get ⟨i, hi⟩) d p = .ok r →
      (∀ (j : ℕ) (hj : j < i), ∃ es, validate (vs.get ⟨j, by omega⟩) d p = .error es) →
      validate (.union vs .anyOf) d p = .ok r)
    ∧ ((∀ v ∈ vs, ∃ es, validate v d p = .error es) →
      validate (.union vs .anyOf) d p = .error [(p, Msg.noMatchUnion)]
      ∧ validate (.union vs .oneOf) d p = .error [(p, Msg.noMatchOneOf)])
    ∧ (∀ (i : ℕ) (hi : i < vs.length) (r : PyVal),
      validate (vs.get ⟨i, hi⟩) d p = .ok r →
      (∀ (j : ℕ) (hj : j < vs.length), j ≠ i →
        ∃ es, validate (vs.get ⟨j, hj⟩) d p = .error es) →
      validate (.union vs .oneOf) d p = .ok r)
    ∧ (∀ (i j : ℕ) (hi : i < vs.length) (hj : j < vs.length) (ri rj : PyVal),
      i < j → validate (vs.get ⟨i, hi⟩) d p = .ok ri →
      validate (vs.get ⟨j, hj⟩) d p = .ok rj →
      validate (.union vs .oneOf) d p = .error [(p, Msg.multipleOneOf)]) := by
  have hmap : ∀ (i : ℕ) (hi : i < vs.length),
      (vs.map (fun v => validate v d p)).get ⟨i, by simpa using hi⟩
        = validate (vs.get ⟨i, hi⟩) d p := by
    intro i hi
    simp
  refine ⟨?_, ?_, ?_, ?_⟩
  · intro i hi r hok hprev
    rcases filterMap_toOption_first (vs.map (fun v => validate v d p)) i
        (by simpa using hi) r (by rw [hmap i hi]; exact hok)
        (fun j hj => by
          rcases hprev j hj with ⟨es, hes⟩
          exact ⟨es, by rw [hmap j (by omega)]; exact hes⟩) with ⟨rest, hrest⟩
    simp [validate, unionRunAll_eq_map, hrest]
  · intro hall
    have hnil : (vs.map (fun v => validate v d p)).filterMap Except.toOption = [] := by
      apply filterMap_toOption_nil
      intro e he
      rcases List.mem_map.mp he with ⟨v, hv, rfl⟩
      exact hall v hv
    constructor <;> simp [validate, unionRunAll_eq_map, hnil]
  · intro i hi r hok hothers
    have hsingle := filterMap_toOption_single (vs.map (fun v => validate v d p)) i
      (by simpa using hi) r (by rw [hmap i hi]; exact hok)
      (fun j hj hne => by
        rcases hothers j (by simpa using hj) hne with ⟨es, hes⟩
        exact ⟨es, by rw [hmap j (by simpa using hj)]; exact hes⟩)
    simp [validate, unionRunAll_eq_map, hsingle]
  · intro i j hi hj ri rj hij hgi hgj
    have h2 := filterMap_toOption_two (vs.map (fun v => validate v d p)) i j
      (by simpa using hi) (by simpa using hj) ri rj hij
      (by rw [hmap i hi]; exact hgi) (by rw [hmap j hj]; exact hgj)
    rcases hlist : (vs.map (fun v => validate v d p)).filterMap Except.toOption with
      _ | ⟨a, _ | ⟨b, t⟩⟩
    · rw [hlist] at h2; simp at h2
    · rw [hlist] at h2; simp at h2
    · simp [validate, unionRunAll_eq_map, hlist]

/-- Witness for C4: `Union[Literal[5], Any]` in both modes. -/
theorem c4_witness :
    validate (.union [.literal [.int 5], .anyV] .anyOf) (.str "x") "" = .ok (.str "x")
    ∧ validate (.union [.literal [.int 5], .anyV] .oneOf) (.str "x") ""
        = .ok (.str "x")
    ∧ validate (.union ([] : List Validator) .anyOf) (.str "x") ""
        = .error [("", Msg.noMatchUnion)]
    ∧ validate (.union [.anyV, .anyV] .oneOf) (.str "x") ""
        = .error [("", Msg.multipleOneOf)] := by
  have hlit : validate (.literal [.int 5]) (.str "x") ""
      = .error [("", Msg.expectedOneOf [.int 5])] := by
    simp [validate, pyEq, toRat?]
  have hany : validate Validator.anyV (.str "x") "" = .ok (.str "x") := by
    simp [validate]
  refine ⟨?_, ?_, ?_, ?_⟩
  · exact (c4_union_modes [.literal [.int 5], .anyV] (.str "x") "").1 1 (by norm_num)
      (.str "x") hany (fun j hj => by
        have hj0 : j = 0 := by omega
        subst hj0
        exact ⟨_, hlit⟩)
  · exact (c4_union_modes [.literal [.int 5], .anyV] (.str "x") "").2.2.1 1
      (by norm_num) (.str "x") hany (fun j hj hne => by
        have hj0 : j = 0 := by simp at hj; omega
        subst hj0
        exact ⟨_, hlit⟩)
  · exact ((c4_union_modes [] (.str "x") "").2.1 (by simp)).1
  · exact (c4_union_modes [.anyV, .anyV] (.str "x") "").2.2.2 0 1 (by norm_num)
      (by norm_num) (.str "x") (.str "x") (by omega) hany hany

/-! ### Structural induction for the nested validator tree -/

theorem Validator.myInduction {P : Validator → Prop}
    (hany : P .anyV)
    (hnum : ∀ v, P (.number v))
    (hstr : ∀ v, P (.string v))
    (hlit : ∀ allowed, P (.literal allowed))
    (hcn : ∀ c, P (.collectionNone c))
    (hcs : ∀ c v, P v → P (.collectionSingle c v))
    (hct : ∀ c vs, (∀ v ∈ vs, P v) → P (.collectionTuple c vs))
    (hun : ∀ vs mode, (∀ v ∈ vs, P v) → P (.union vs mode))
    (hob : ∀ fields c req, (∀ kv ∈ fields, P kv.2) → P (.object fields c req)) :
    ∀ v, P v := by
  have H : ∀ (n : ℕ) (v : Validator), sizeOf v ≤ n → P v := by
    intro n
    induction n with
    | zero =>
      intro v hv
      cases v <;> simp at hv
    | succ n ih =>
      intro v hv
      cases v with
      | anyV => exact hany
      | number w => exact hnum w
      | string w => exact hstr w
      | literal allowed => exact hlit allowed
      | collectionNone c => exact hcn c
      | collectionSingle c item =>
        refine hcs c item (ih item ?_)
        simp at hv
        omega
      | collectionTuple c vs =>
        refine hct c vs (fun v hmem => ih v ?_)
        have hlt := List.sizeOf_lt_of_mem hmem
        simp at hv
        omega
      | union vs mode =>
        refine hun vs mode (fun v hmem => ih v ?_)
        have hlt := List.sizeOf_lt_of_mem hmem
        simp at hv
        omega
      | object fields c req =>
        refine hob fields c req (fun kv hmem => ih kv.2 ?_)
        have hlt := List.sizeOf_lt_of_mem hmem
        obtain ⟨k, fv⟩ := kv
        simp at hv hlt ⊢
        omega
  exact fun v => H (sizeOf v) v le_rfl

/-! ### Shape lemmas for the leaf validators -/

theorem lookupValidate_eq (fields : List (String × Validator)) (k : String)
    (val : PyVal) (path : String) :
    lookupValidate fields k val path
      = (lookupField fields k).map (fun fv => validate fv val path) := by
  induction fields with
  | nil => simp [lookupValidate, lookupField]
  | cons kv rest ih =>
    obtain ⟨k2, fv⟩ := kv
    by_cases h : (k2 == k) = true <;>
      simp [lookupValidate, lookupField, h, ih]

theorem lookupField_mem (fields : List (String × Validator)) (k : String)
    (fv : Validator) (h : lookupField fields k = some fv) :
    ∃ k2, (k2, fv) ∈ fields := by
  induction fields with
  | nil => simp [lookupField] at h
  | cons kv rest ih =>
    obtain ⟨k2, fv2⟩ := kv
    by_cases hk : (k2 == k) = true
    · simp [lookupField, hk] at h
      exact ⟨k2, by simp [h]⟩
    · simp only [lookupField, hk] at h
      rcases ih (by simpa using h) with ⟨k3, hk3⟩
      exact ⟨k3, by simp [hk3]⟩

/-- `optCheckN` either passes or fails with its single entry. -/
theorem optCheckN_cases (o : Option ℕ) (viol : ℕ → Bool) (msg : ℕ → Msg)
    (path : String) :
    optCheckN o viol msg path = .ok ()
    ∨ ∃ m, o = some m ∧ viol m = true
        ∧ optCheckN o viol msg path = .error [(path, msg m)] := by
  rcases o with _ | m
  · left
    rfl
  · by_cases h : viol m = true
    · right
      exact ⟨m, rfl, h, by simp [optCheckN, h]⟩
    · left
      simp [optCheckN, h]

/-- Every raised `NumberValidator` error is a single entry at the call path,
and its message is never the missing-required-field message. -/
theorem numberValidate_error_shape (v : NumberV) (x : PyVal) (p : String)
    (es : List Entry) (h : numberValidate v x p = .error es) :
    ∃ msg, es = [(p, msg)] ∧ msg ≠ Msg.fieldRequired := by
  unfold numberValidate at h
  rcases hq : toRat? x with _ | q <;> rw [hq] at h
  · exact ⟨Msg.invalidType, by injection h with h; exact h.symm, by simp⟩
  · by_cases h1 : (decide (v.numberType = NumberType.intT) && isFloatNonIntegral x)
        = true
    · simp only [h1, if_true, except_throw_eq, except_error_bind] at h
      exact ⟨Msg.expectedInteger, by injection h with h; exact h.symm, by simp⟩
    · simp only [h1, Bool.false_eq_true, if_false, except_pure_eq, except_ok_bind] at h
      rcases optCheck_cases v.min_val (fun m => decide (q < m)) Msg.mustBeGE p with
        h2 | ⟨m, _, _, h2⟩ <;> rw [h2] at h <;>
        [skip; exact ⟨Msg.mustBeGE m,
          by simp only [except_error_bind] at h; injection h with h; exact h.symm,
          by simp⟩]
      simp only [except_ok_bind] at h
      rcases optCheck_cases v.max_val (fun m => decide (m < q)) Msg.mustBeLE p with
        h3 | ⟨m, _, _, h3⟩ <;> rw [h3] at h <;>
        [skip; exact ⟨Msg.mustBeLE m,
          by simp only [except_error_bind] at h; injection h with h; exact h.symm,
          by simp⟩]
      simp only [except_ok_bind] at h
      rcases optCheck_cases v.exclusive_min_val (fun m => decide (q ≤ m))
          Msg.mustBeGT p with h4 | ⟨m, _, _, h4⟩ <;> rw [h4] at h <;>
        [skip; exact ⟨Msg.mustBeGT m,
          by simp only [except_error_bind] at h; injection h with h; exact h.symm,
          by simp⟩]
      simp only [except_ok_bind] at h
      rcases optCheck_cases v.exclusive_max_val (fun m => decide (m ≤ q))
          Msg.mustBeLT p with h5 | ⟨m, _, _, h5⟩ <;> rw [h5] at h <;>
        [skip; exact ⟨Msg.mustBeLT m,
          by simp only [except_error_bind] at h; injection h with h; exact h.symm,
          by simp⟩]
      simp only [except_ok_bind] at h
      rcases optCheck_cases v.step_val
          (fun s => !(isclose (pymod q s) 0 || isclose (pymod q s) s))
          Msg.mustBeMultipleOf p with h6 | ⟨m, _, _, h6⟩ <;> rw [h6] at h
      · simp at h
      · exact ⟨Msg.mustBeMultipleOf m,
          by simp only [except_error_bind] at h; injection h with h; exact h.symm,
          by simp⟩

/-- Every raised `StringValidator` error is a single entry at the call path,
never with the missing-required-field message. -/
theorem stringValidate_error_shape (v : StringV) (x : PyVal) (p : String)
    (es : List Entry) (h : stringValidate v x p = .error es) :
    ∃ msg, es = [(p, msg)] ∧ msg ≠ Msg.fieldRequired := by
  rcases x with _ | b | n | q | s | xs | xs | kvs <;>
    simp only [stringValidate, optCheckN] at h <;>
    try exact ⟨Msg.invalidType, by injection h with h; exact h.symm, by simp⟩
  repeat'
    first
    | split at h
    | simp only [except_throw_eq, except_error_bind, except_pure_eq,
        except_ok_bind] at h
  all_goals
    first
    | exact ⟨_, by injection h with h; exact h.symm, by simp⟩
    | simp at h

/-! ### C3: error-policy lemmas -/

theorem literal_error_shape (allowed : List PyVal) (x : PyVal) (p : String)
    (es : List Entry) (h : validate (.literal allowed) x p = .error es) :
    es = [(p, Msg.expectedOneOf allowed)] := by
  simp only [validate] at h
  split at h
  · simp at h
  · injection h with h
    exact h.symm

theorem objectItems_child_sublist (fields : List (String × Validator))
    (strict : Bool) (p : String) :
    ∀ (kvs : List (String × PyVal)) (k : String) (val : PyVal) (r : List Entry),
      (k, val) ∈ kvs →
      lookupValidate fields k val (joinField p k) = some (.error r) →
      r.Sublist (objectItems fields strict kvs p).2 := by
  intro kvs
  induction kvs with
  | nil => simp
  | cons kv rest ih =>
    intro k val r hmem hlook
    obtain ⟨k0, v0⟩ := kv
    rcases List.mem_cons.mp hmem with heq | hmem2
    · injection heq with hk hv
      subst hk
      subst hv
      simp only [objectItems, hlook]
      exact List.sublist_append_left r _
    · have htail := ih k val r hmem2 hlook
      simp only [objectItems]
      rcases hl0 : lookupValidate fields k0 v0 (joinField p k0) with _ | r0
      · cases strict with
        | true => simpa using htail.trans (List.sublist_cons_self _ _)
        | false => simpa using htail
      · rcases r0 with es0 | y0
        · simpa using htail.trans (List.sublist_append_right es0 _)
        · simpa using htail

/-- Record aggregation: when a Record validation fails, every failing
declared field's full entry list occurs inside the aggregate error. -/
theorem record_aggregates (fields : List (String × Validator))
    (c : ObjConstraints) (required : List String) (kvs : List (String × PyVal))
    (p : String) (es : List Entry) (k : String) (val : PyVal) (r : List Entry)
    (hvd : validate (.object fields c required) (.dict kvs) p = .error es)
    (hmem : (k, val) ∈ kvs)
    (hchild : lookupValidate fields k val (joinField p k) = some (.error r)) :
    r.Sublist es := by
  simp only [validate] at hvd
  split at hvd
  · simp at hvd
  · injection hvd with hvd
    subst hvd
    refine (objectItems_child_sublist fields c.strictLike p kvs k val r hmem
      hchild).trans ?_
    exact (List.sublist_append_right _ _).trans (List.sublist_append_left _ _)

theorem validateEach_error_at (v : Validator) (p : String) :
    ∀ (xs : List PyVal) (n i : ℕ) (hi : i < xs.length) (es : List Entry),
      (∀ (j : ℕ) (hj : j < i),
        ∃ y, validate v (xs.get ⟨j, by omega⟩) (idxPath p (n + j)) = .ok y) →
      validate v (xs.get ⟨i, hi⟩) (idxPath p (n + i)) = .error es →
      validateEach v xs p n = .error es := by
  intro xs
  induction xs with
  | nil => intro n i hi; simp at hi
  | cons x rest ih =>
    intro n i hi es hprev herr
    cases i with
    | zero =>
      simp only [List.get] at herr
      rw [Nat.add_zero] at herr
      simp only [validateEach, herr, except_error_bind]
    | succ m =>
      obtain ⟨y, hy⟩ := hprev 0 (by omega)
      simp only [List.get] at hy
      rw [Nat.add_zero] at hy
      have harith : n + (m + 1) = n + 1 + m := by omega
      have htail := ih (n + 1) m (by simpa using hi) es
        (fun j hj => by
          obtain ⟨y2, hy2⟩ := hprev (j + 1) (by omega)
          have : n + (j + 1) = n + 1 + j := by omega
          rw [this] at hy2
          exact ⟨y2, by simpa using hy2⟩)
        (by
          rw [harith] at herr
          simpa using herr)
      simp only [validateEach, hy, except_ok_bind, htail, except_error_bind]

theorem validateZip_error_at (p : String) :
    ∀ (vs : List Validator) (xs : List PyVal) (n i : ℕ)
      (hiv : i < vs.length) (hix : i < xs.length) (es : List Entry),
      (∀ (j : ℕ) (hj : j < i),
        ∃ y, validate (vs.get ⟨j, by omega⟩) (xs.get ⟨j, by omega⟩)
          (idxPath p (n + j)) = .ok y) →
      validate (vs.get ⟨i, hiv⟩) (xs.get ⟨i, hix⟩) (idxPath p (n + i)) = .error es →
      validateZip vs xs p n = .error es := by
  intro vs
  induction vs with
  | nil => intro xs n i hiv; simp at hiv
  | cons v vrest ih =>
    intro xs n i hiv hix es hprev herr
    rcases xs with _ | ⟨x, xrest⟩
    · simp at hix
    cases i with
    | zero =>
      simp only [List.get] at herr
      rw [Nat.add_zero] at herr
      simp only [validateZip, herr, except_error_bind]
    | succ m =>
      obtain ⟨y, hy⟩ := hprev 0 (by omega)
      simp only [List.get] at hy
      rw [Nat.add_zero] at hy
      have harith : n + (m + 1) = n + 1 + m := by omega
      have htail := ih xrest (n + 1) m (by simpa using hiv) (by simpa using hix) es
        (fun j hj => by
          obtain ⟨y2, hy2⟩ := hprev (j + 1) (by omega)
          have : n + (j + 1) = n + 1 + j := by omega
          rw [this] at hy2
          exact ⟨y2, by simpa using hy2⟩)
        (by
          rw [harith] at herr
          simpa using herr)
      simp only [validateZip, hy, except_ok_bind, htail, except_error_bind]

/-- C3 (amended): scalar leaf validators (number, string, literal) raise on
the first violated rule with exactly one entry, and the Record validator
collects every failing field's entries into its single aggregate; but the
Sequence and Tuple element loops of `CollectionValidator` stop at the first
failing element: the aggregate is exactly that element's error. -/
theorem c3_amended :
    (∀ (v : NumberV) (x : PyVal) (p : String) (es : List Entry),
      validate (.number v) x p = .error es → es.length = 1)
    ∧ (∀ (v : StringV) (x : PyVal) (p : String) (es : List Entry),
      validate (.string v) x p = .error es → es.length = 1)
    ∧ (∀ (allowed : List PyVal) (x : PyVal) (p : String) (es : List Entry),
      validate (.literal allowed) x p = .error es → es.length = 1)
    ∧ (∀ (fields : List (String × Validator)) (c : ObjConstraints)
        (required : List String) (kvs : List (String × PyVal)) (p : String)
        (es : List Entry) (k : String) (val : PyVal) (r : List Entry),
      validate (.object fields c required) (.dict kvs) p = .error es →
      (k, val) ∈ kvs →
      lookupValidate fields k val (joinField p k) = some (.error r) →
      r.Sublist es)
    ∧ (∀ (c : CollConstraints) (v : Validator) (xs : List PyVal) (p : String)
        (i : ℕ) (hi : i < xs.length) (es : List Entry),
      collChecks c xs p = .ok () →
      (∀ (j : ℕ) (hj : j < i),
        ∃ y, validate v (xs.get ⟨j, by omega⟩) (idxPath p j) = .ok y) →
      validate v (xs.get ⟨i, hi⟩) (idxPath p i) = .error es →
      validate (.collectionSingle c v) (.list xs) p = .error es)
    ∧ (∀ (c : CollConstraints) (vs : List Validator) (xs : List PyVal)
        (p : String) (i : ℕ) (hiv : i < vs.length) (hix : i < xs.length)
        (es : List Entry),
      collChecks c xs p = .ok () → xs.length = vs.length →
      (∀ (j : ℕ) (hj : j < i),
        ∃ y, validate (vs.get ⟨j, by omega⟩) (xs.get ⟨j, by omega⟩)
          (idxPath p j) = .ok y) →
      validate (vs.get ⟨i, hiv⟩) (xs.get ⟨i, hix⟩) (idxPath p i) = .error es →
      validate (.collectionTuple c vs) (.list xs) p = .error es) := by
  refine ⟨?_, ?_, ?_, ?_, ?_, ?_⟩
  · intro v x p es h
    rcases numberValidate_error_shape v x p es (by simpa [validate] using h) with
      ⟨msg, rfl, _⟩
    rfl
  · intro v x p es h
    rcases stringValidate_error_shape v x p es (by simpa [validate] using h) with
      ⟨msg, rfl, _⟩
    rfl
  · intro allowed x p es h
    rw [literal_error_shape allowed x p es h]
    rfl
  · exact fun fields c required kvs p es k val r h1 h2 h3 =>
      record_aggregates fields c required kvs p es k val r h1 h2 h3
  · intro c v xs p i hi es hchecks hprev herr
    have heach := validateEach_error_at v p xs 0 i hi es
      (fun j hj => by simpa using hprev j hj) (by simpa using herr)
    simp only [validate, asSeq, hchecks, except_ok_bind, heach, except_error_bind]
  · intro c vs xs p i hiv hix es hchecks hlen hprev herr
    have hzip := validateZip_error_at p vs xs 0 i hiv hix es
      (fun j hj => by simpa using hprev j hj) (by simpa using herr)
    simp only [validate, asSeq, hchecks, except_ok_bind, hlen, if_false, hzip,
      except_error_bind]
    simp [hlen]

/-- Witness for C3 (amended), on concrete data: a failing number leaf has one
entry; a record with two failing fields aggregates both fields' entries; a
sequence with two failing elements reports only the first. -/
theorem c3_witness :
    (([("p", Msg.invalidType)] : List Entry)).length = 1
    ∧ ([("a", Msg.invalidType)] : List Entry).Sublist
        [("a", Msg.invalidType), ("b", Msg.invalidType)]
    ∧ ([("b", Msg.invalidType)] : List Entry).Sublist
        [("a", Msg.invalidType), ("b", Msg.invalidType)]
    ∧ validate c3Seq (.list [.str "a", .str "b"]) ""
        = .error [("[0]", Msg.invalidType)] := by
  have hrec : validate (.object [("a", c3Child), ("b", c3Child)]
      ⟨false, Option.none⟩ []) (.dict [("a", PyVal.none), ("b", PyVal.none)]) ""
      = .error [("a", Msg.invalidType), ("b", Msg.invalidType)] := by
    simp [validate, objectItems, lookupValidate, containsKey, joinField, c3Child,
      numberValidate, toRat?]
  refine ⟨?_, ?_, ?_, ?_⟩
  · exact c3_amended.1
      ⟨.intT, Option.none, Option.none, Option.none, Option.none, Option.none⟩
      (.str "q") "p" [("p", Msg.invalidType)]
      (by simp [validate, numberValidate, toRat?])
  · exact c3_amended.2.2.2.1 [("a", c3Child), ("b", c3Child)] ⟨false, Option.none⟩
      [] [("a", PyVal.none), ("b", PyVal.none)] ""
      [("a", Msg.invalidType), ("b", Msg.invalidType)] "a" PyVal.none
      [("a", Msg.invalidType)] hrec (by simp)
      (by simp [lookupValidate, joinField, c3Child, validate, numberValidate, toRat?])
  · exact c3_amended.2.2.2.1 [("a", c3Child), ("b", c3Child)] ⟨false, Option.none⟩
      [] [("a", PyVal.none), ("b", PyVal.none)] ""
      [("a", Msg.invalidType), ("b", Msg.invalidType)] "b" PyVal.none
      [("b", Msg.invalidType)] hrec (by simp)
      (by simp [lookupValidate, joinField, c3Child, validate, numberValidate, toRat?])
  · exact c3_amended.2.2.2.2.1 ⟨Option.none, Option.none, false⟩ c3Child
      [.str "a", .str "b"] "" 0 (by norm_num) [("[0]", Msg.invalidType)]
      (by simp [collChecks, optCheckN, hasPyDup])
      (fun j hj => by omega)
      (by simp [c3Child, validate, numberValidate, toRat?, idxPath]; decide)

/-! ### C3: fail-fast leaves vs aggregating containers (counterexample) -/

/-- C3 (refuted as stated): a Sequence with two violating elements raises an
error carrying only the first element's single entry — `CollectionValidator`
propagates the first child failure instead of collecting every child
violation. -/
theorem c3_counterexample :
    validate c3Seq (.list [.str "a", .str "b"]) "" = .error [("[0]", Msg.invalidType)]
    ∧ validate c3Child (.str "a") "[0]" = .error [("[0]", Msg.invalidType)]
    ∧ validate c3Child (.str "b") "[1]" = .error [("[1]", Msg.invalidType)] := by
  refine ⟨?_, ?_, ?_⟩ <;>
    simp [c3Seq, c3Child, validate, validateEach, collChecks, asSeq, hasPyDup,
      optCheckN, numberValidate, toRat?, idxPath] <;> decide

/-! ### C5: required-field presence (counterexample) -/

theorem dot_mem_joinField (p k : String) (hp : p ≠ "") :
    '.' ∈ (joinField p k).toList := by
  simp only [joinField, hp, if_false]
  simp [String.toList, String.data_append]

theorem bracket_mem_idxPath (p : String) (i : ℕ) : '[' ∈ (idxPath p i).toList := by
  simp [idxPath, String.toList, String.data_append]

theorem ne_empty_of_mem_toList {s : String} {c : Char} (h : c ∈ s.toList) :
    s ≠ "" := by
  intro he
  subst he
  simp [String.toList] at h

theorem lookupField_mem_eq (fields : List (String × Validator)) (k : String)
    (fv : Validator) (h : lookupField fields k = some fv) : (k, fv) ∈ fields := by
  induction fields with
  | nil => simp [lookupField] at h
  | cons kv rest ih =>
    obtain ⟨k2, fv2⟩ := kv
    by_cases hk : (k2 == k) = true
    · simp only [lookupField, hk, if_true] at h
      injection h with h
      subst h
      have : k2 = k := eq_of_beq hk
      subst this
      exact List.mem_cons_self _ _
    · simp only [lookupField, hk, Bool.false_eq_true, if_false] at h
      exact List.mem_cons_of_mem _ (ih h)

theorem collChecks_error_shape (c : CollConstraints) (xs : List PyVal)
    (p : String) (es : List Entry) (h : collChecks c xs p = .error es) :
    ∃ msg, es = [(p, msg)] ∧ msg ≠ Msg.fieldRequired := by
  simp only [collChecks, optCheckN] at h
  repeat'
    first
    | split at h
    | simp only [except_throw_eq, except_error_bind, except_pure_eq,
        except_ok_bind] at h
  all_goals
    first
    | exact ⟨_, by injection h with h; exact h.symm, by simp⟩
    | simp at h

theorem union_error_shape (vs : List Validator) (mode : UnionMode) (x : PyVal)
    (p : String) (es : List Entry)
    (h : validate (.union vs mode) x p = .error es) :
    ∃ msg, es = [(p, msg)] ∧ msg ≠ Msg.fieldRequired := by
  cases mode <;> simp only [validate] at h <;> repeat' split at h
  all_goals
    first
    | exact ⟨_, by injection h with h; exact h.symm, by simp⟩
    | simp at h

theorem validateEach_error_mem (v : Validator) (p : String) :
    ∀ (xs : List PyVal) (n : ℕ) (es : List Entry),
      validateEach v xs p n = .error es →
      ∃ (j : ℕ) (hj : j < xs.length),
        validate v (xs.get ⟨j, hj⟩) (idxPath p (n + j)) = .error es := by
  intro xs
  induction xs with
  | nil => intro n es h; simp [validateEach] at h
  | cons x rest ih =>
    intro n es h
    simp only [validateEach] at h
    rcases hv : validate v x (idxPath p n) with es0 | y <;> rw [hv] at h
    · simp only [except_error_bind] at h
      injection h with h
      subst h
      exact ⟨0, Nat.succ_pos _, by simpa using hv⟩
    · simp only [except_ok_bind] at h
      rcases hrest : validateEach v rest p (n + 1) with es1 | ys <;> rw [hrest] at h
      · simp only [except_error_bind] at h
        injection h with h
        subst h
        rcases ih (n + 1) es1 hrest with ⟨j, hj, hje⟩
        refine ⟨j + 1, Nat.succ_lt_succ hj, ?_⟩
        have harith : n + (j + 1) = n + 1 + j := by omega
        rw [harith]
        simpa using hje
      · simp at h

theorem validateZip_error_mem (p : String) :
    ∀ (vs : List Validator) (xs : List PyVal) (n : ℕ) (es : List Entry),
      validateZip vs xs p n = .error es →
      ∃ (j : ℕ) (hjv : j < vs.length) (hjx : j < xs.length),
        validate (vs.get ⟨j, hjv⟩) (xs.get ⟨j, hjx⟩) (idxPath p (n + j))
          = .error es := by
  intro vs
  induction vs with
  | nil => intro xs n es h; simp [validateZip] at h
  | cons v vrest ih =>
    intro xs n es h
    rcases xs with _ | ⟨x, xrest⟩
    · simp [validateZip] at h
    simp only [validateZip] at h
    rcases hv : validate v x (idxPath p n) with es0 | y <;> rw [hv] at h
    · simp only [except_error_bind] at h
      injection h with h
      subst h
      exact ⟨0, Nat.succ_pos _, Nat.succ_pos _, by simpa using hv⟩
    · simp only [except_ok_bind] at h
      rcases hrest : validateZip vrest xrest p (n + 1) with es1 | ys <;>
        rw [hrest] at h
      · simp only [except_error_bind] at h
        injection h with h
        subst h
        rcases ih xrest (n + 1) es1 hrest with ⟨j, hjv, hjx, hje⟩
        refine ⟨j + 1, Nat.succ_lt_succ hjv, Nat.succ_lt_succ hjx, ?_⟩
        have harith : n + (j + 1) = n + 1 + j := by omega
        rw [harith]
        simpa using hje
      · simp at h

theorem objectItems_error_mem (fields : List (String × Validator)) (strict : Bool)
    (p : String) :
    ∀ (kvs : List (String × PyVal)) (q : String) (msg : Msg),
      (q, msg) ∈ (objectItems fields strict kvs p).2 →
      msg = Msg.extraFieldNotAllowed
      ∨ (∃ k val r, (k, val) ∈ kvs
          ∧ lookupValidate fields k val (joinField p k) = some (.error r)
          ∧ (q, msg) ∈ r) := by
  intro kvs
  induction kvs with
  | nil => intro q msg h; simp [objectItems] at h
  | cons kv rest ih =>
    intro q msg h
    obtain ⟨k0, v0⟩ := kv
    simp only [objectItems] at h
    rcases hl : lookupValidate fields k0 v0 (joinField p k0) with _ | r0 <;>
      rw [hl] at h
    · cases strict with
      | false =>
        simp only [Bool.false_eq_true, if_false] at h
        rcases ih q msg h with hextra | ⟨k1, val1, r1, hm, hlk, hr⟩
        · exact Or.inl hextra
        · exact Or.inr ⟨k1, val1, r1, List.mem_cons_of_mem _ hm, hlk, hr⟩
      | true =>
        simp only [if_true] at h
        rcases List.mem_cons.mp h with heq | hmem
        · injection heq with h1 h2
          exact Or.inl h2
        · rcases ih q msg hmem with hextra | ⟨k1, val1, r1, hm, hlk, hr⟩
          · exact Or.inl hextra
          · exact Or.inr ⟨k1, val1, r1, List.mem_cons_of_mem _ hm, hlk, hr⟩
    · rcases r0 with es0 | y0
      · simp only at h
        rcases List.mem_append.mp h with hes0 | hmem
        · exact Or.inr ⟨k0, v0, es0, List.mem_cons_self _ _, hl, hes0⟩
        · rcases ih q msg hmem with hextra | ⟨k1, val1, r1, hm, hlk, hr⟩
          · exact Or.inl hextra
          · exact Or.inr ⟨k1, val1, r1, List.mem_cons_of_mem _ hm, hlk, hr⟩
      · simp only at h
        rcases ih q msg h with hextra | ⟨k1, val1, r1, hm, hlk, hr⟩
        · exact Or.inl hextra
        · exact Or.inr ⟨k1, val1, r1, List.mem_cons_of_mem _ hm, hlk, hr⟩

theorem objectValidate_error_eq (fields : List (String × Validator))
    (c : ObjConstraints) (required : List String) (kvs : List (String × PyVal))
    (p : String) (es : List Entry)
    (h : validate (.object fields c required) (.dict kvs) p = .error es) :
    es = ((required.filter (fun k => !(containsKey kvs k))).map
        (fun k => (joinField p k, Msg.fieldRequired)))
      ++ (objectItems fields c.strictLike kvs p).2
      ++ (match c.min_properties with
          | some n => if kvs.length < n then [(p, Msg.tooFewProperties n)] else []
          | Option.none => []) := by
  simp only [validate] at h
  split at h
  · simp at h
  · injection h with h
    exact h.symm

theorem objectValidate_ok_empty (fields : List (String × Validator))
    (c : ObjConstraints) (required : List String) (kvs : List (String × PyVal))
    (p : String) (y : PyVal)
    (h : validate (.object fields c required) (.dict kvs) p = .ok y) :
    required.filter (fun k => !(containsKey kvs k)) = []
    ∧ (objectItems fields c.strictLike kvs p).2 = [] := by
  simp only [validate] at h
  split at h
  case _ hemp =>
    rw [List.isEmpty_iff, List.append_eq_nil, List.append_eq_nil] at hemp
    exact ⟨List.map_eq_nil.mp hemp.1.1, hemp.1.2⟩
  · simp at h

/-- Any missing-required-field entry produced under a nonempty call path has
a dotted path: object validators always join the current path with a `.`
before the field name. -/
theorem required_entry_has_dot :
    ∀ (v : Validator) (x : PyVal) (p : String), p ≠ "" →
      ∀ (q : String) (es : List Entry), validate v x p = .error es →
        (q, Msg.fieldRequired) ∈ es → '.' ∈ q.toList := by
  intro v
  induction v using Validator.myInduction with
  | hany =>
    intro x p hp q es h hm
    simp [validate] at h
  | hnum w =>
    intro x p hp q es h hm
    rcases numberValidate_error_shape w x p es (by simpa [validate] using h) with
      ⟨msg, rfl, hne⟩
    simp at hm
    exact absurd hm.2 hne.symm
  | hstr w =>
    intro x p hp q es h hm
    rcases stringValidate_error_shape w x p es (by simpa [validate] using h) with
      ⟨msg, rfl, hne⟩
    simp at hm
    exact absurd hm.2 hne.symm
  | hlit allowed =>
    intro x p hp q es h hm
    rw [literal_error_shape allowed x p es h] at hm
    simp at hm
  | hcn c =>
    intro x p hp q es h hm
    simp only [validate] at h
    split at h
    next xs heq =>
      rcases hck : collChecks c xs p with es0 | u <;> rw [hck] at h
      · simp only [except_error_bind] at h
        injection h with h
        subst h
        rcases collChecks_error_shape c xs p _ hck with ⟨msg, rfl, hne⟩
        simp at hm
        exact absurd hm.2 hne.symm
      · simp at h
    next heq =>
      injection h with h
      subst h
      simp at hm
  | hcs c v ih =>
    intro x p hp q es h hm
    simp only [validate] at h
    split at h
    next xs heq =>
      rcases hck : collChecks c xs p with es0 | u <;> rw [hck] at h
      · simp only [except_error_bind] at h
        injection h with h
        subst h
        rcases collChecks_error_shape c xs p _ hck with ⟨msg, rfl, hne⟩
        simp at hm
        exact absurd hm.2 hne.symm
      · simp only [except_ok_bind] at h
        rcases he : validateEach v xs p 0 with es1 | ys <;> rw [he] at h
        · simp only [except_error_bind] at h
          injection h with h
          subst h
          rcases validateEach_error_mem v p xs 0 es1 he with ⟨j, hj, hje⟩
          exact ih _ (idxPath p (0 + j))
            (ne_empty_of_mem_toList (bracket_mem_idxPath p (0 + j))) q es1 hje hm
        · simp at h
    next heq =>
      injection h with h
      subst h
      simp at hm
  | hct c vs ih =>
    intro x p hp q es h hm
    simp only [validate] at h
    split at h
    next xs heq =>
      rcases hck : collChecks c xs p with es0 | u <;> rw [hck] at h
      · simp only [except_error_bind] at h
        injection h with h
        subst h
        rcases collChecks_error_shape c xs p _ hck with ⟨msg, rfl, hne⟩
        simp at hm
        exact absurd hm.2 hne.symm
      · simp only [except_ok_bind] at h
        split at h
        · simp only [except_throw_eq] at h
          injection h with h
          subst h
          simp at hm
        · rcases hz : validateZip vs xs p 0 with es1 | ys <;> rw [hz] at h
          · simp only [except_error_bind] at h
            injection h with h
            subst h
            rcases validateZip_error_mem p vs xs 0 es1 hz with ⟨j, hjv, hjx, hje⟩
            exact ih _ (List.get_mem vs j hjv) _ (idxPath p (0 + j))
              (ne_empty_of_mem_toList (bracket_mem_idxPath p (0 + j))) q es1 hje hm
          · simp at h
    next heq =>
      injection h with h
      subst h
      simp at hm
  | hun vs mode ih =>
    intro x p hp q es h hm
    rcases union_error_shape vs mode x p es h with ⟨msg, rfl, hne⟩
    simp at hm
    exact absurd hm.2 hne.symm
  | hob fields c req ih =>
    intro x p hp q es h hm
    rcases x with _ | b | n | qq | s | xs | xs | kvs <;>
      try (simp only [validate] at h; injection h with h; subst h; simp at hm)
    have heq := objectValidate_error_eq fields c req kvs p es h
    subst heq
    rcases List.mem_append.mp hm with hm1 | hm3
    · rcases List.mem_append.mp hm1 with hmA | hmB
      · rcases List.mem_map.mp hmA with ⟨k1, hk1, hpair⟩
        injection hpair with hq hmsg
        rw [← hq]
        exact dot_mem_joinField p k1 hp
      · rcases objectItems_error_mem fields c.strictLike p kvs q _ hmB with
          hex | ⟨k1, val1, r1, hmem1, hlk, hr⟩
        · simp at hex
        · rw [lookupValidate_eq] at hlk
          rcases hf : lookupField fields k1 with _ | fv <;> rw [hf] at hlk
          · simp at hlk
          · simp only [Option.map_some'] at hlk
            injection hlk with hlk
            have hfv := lookupField_mem_eq fields k1 fv hf
            exact ih (k1, fv) hfv val1 (joinField p k1)
              (ne_empty_of_mem_toList (dot_mem_joinField p k1 hp)) q r1 hlk hr
    · rcases hmp : c.min_properties with _ | nn <;> rw [hmp] at hm3
      · simp at hm3
      · split at hm3 <;> simp at hm3

/-- C5 (amended): in the interpreted `ObjectValidator`, a required field `k`
is reported as a missing required field if and only if the key `k` is absent
from the input mapping — a key bound to null counts as *present* (its value
is then handed to the field validator, which reports its own error instead).
Stated for a top-level record whose declared field names are nonempty and
for a dot-free required name `k`, so that a field's nested errors cannot
collide with the record's own missing-field entries. -/
theorem c5_amended (fields : List (String × Validator)) (c : ObjConstraints)
    (required : List String) (kvs : List (String × PyVal)) (k : String)
    (hfields : ∀ kv ∈ fields, kv.1 ≠ "")
    (hk : k ∈ required) (hkdot : '.' ∉ k.toList) :
    (∀ es, validate (.object fields c required) (.dict kvs) "" = .error es →
      ((k, Msg.fieldRequired) ∈ es ↔ containsKey kvs k = false))
    ∧ (∀ y, validate (.object fields c required) (.dict kvs) "" = .ok y →
      containsKey kvs k = true) := by
  constructor
  · intro es hes
    have heq := objectValidate_error_eq fields c required kvs "" es hes
    subst heq
    constructor
    · intro hmem
      rcases List.mem_append.mp hmem with hm1 | hm3
      · rcases List.mem_append.mp hm1 with hmA | hmB
        · rcases List.mem_map.mp hmA with ⟨k1, hk1, hpair⟩
          injection hpair with hq hmsg
          have hk1k : k1 = k := by simpa [joinField] using hq
          subst hk1k
          have := List.of_mem_filter hk1
          simpa using this
        · exfalso
          rcases objectItems_error_mem fields c.strictLike "" kvs k _ hmB with
            hex | ⟨k1, val1, r1, hmem1, hlk, hr⟩
          · simp at hex
          · rw [lookupValidate_eq] at hlk
            rcases hf : lookupField fields k1 with _ | fv <;> rw [hf] at hlk
            · simp at hlk
            · simp only [Option.map_some'] at hlk
              injection hlk with hlk
              have hfv := lookupField_mem_eq fields k1 fv hf
              have hk1ne : k1 ≠ "" := hfields (k1, fv) hfv
              have hjoin : joinField "" k1 = k1 := by simp [joinField]
              rw [hjoin] at hlk
              exact hkdot (required_entry_has_dot fv val1 k1 hk1ne k r1 hlk hr)
      · exfalso
        rcases hmp : c.min_properties with _ | nn <;> rw [hmp] at hm3
        · simp at hm3
        · split at hm3 <;> simp at hm3
    · intro habs
      apply List.mem_append.mpr
      left
      apply List.mem_append.mpr
      left
      apply List.mem_map.mpr
      refine ⟨k, List.mem_filter.mpr ⟨hk, by simp [habs]⟩, by simp [joinField]⟩
  · intro y hy
    have hempty := (objectValidate_ok_empty fields c required kvs "" y hy).1
    by_contra habs
    have hkf : k ∈ required.filter (fun k => !(containsKey kvs k)) :=
      List.mem_filter.mpr ⟨hk, by simp [Bool.eq_false_iff.mpr habs]⟩
    rw [hempty] at hkf
    simp at hkf

/-- Witness for C5 (amended): a record requiring `k` on empty input reports
`k` missing; `k` is indeed absent. -/
theorem c5_witness :
    validate (.object [] ⟨false, Option.none⟩ ["k"]) (.dict []) ""
      = .error [("k", Msg.fieldRequired)]
    ∧ (("k", Msg.fieldRequired) ∈ ([("k", Msg.fieldRequired)] : List Entry)
        ↔ containsKey ([] : List (String × PyVal)) "k" = false) := by
  have heval : validate (.object [] ⟨false, Option.none⟩ ["k"]) (.dict []) ""
      = .error [("k", Msg.fieldRequired)] := by
    simp [validate, objectItems, containsKey, joinField]
  refine ⟨heval, ?_⟩
  exact (c5_amended [] ⟨false, Option.none⟩ ["k"] [] "k" (by simp) (by simp)
    (by decide)).1 _ heval

/-- C5 (refuted as stated): with required `k` bound to `None`, the
interpreted `ObjectValidator` does *not* report a missing required field —
the key is present, so the field validator runs on `None` and reports a type
error instead. -/
theorem c5_counterexample :
    validate c5Validator (.dict [("k", PyVal.none)]) ""
      = .error [("k", Msg.invalidType)]
    ∧ ("k", Msg.fieldRequired) ∉ ([("k", Msg.invalidType)] : List Entry) := by
  constructor
  · simp [c5Validator, validate, objectItems, lookupValidate, containsKey,
      joinField, numberValidate, toRat?]
  · simp

/-! ### C9: idempotence (counterexample) -/

theorem noUniqueList_mem (vs : List Validator) (h : noUniqueList vs = true) :
    ∀ v ∈ vs, noUnique v = true := by
  induction vs with
  | nil => simp
  | cons v rest ih =>
    simp only [noUniqueList, Bool.and_eq_true] at h
    intro w hw
    rcases List.mem_cons.mp hw with rfl | hmem
    · exact h.1
    · exact ih h.2 w hmem

theorem noUniqueFields_mem (fs : List (String × Validator))
    (h : noUniqueFields fs = true) : ∀ kv ∈ fs, noUnique kv.2 = true := by
  induction fs with
  | nil => simp
  | cons kv rest ih =>
    obtain ⟨k, v⟩ := kv
    simp only [noUniqueFields, Bool.and_eq_true] at h
    intro w hw
    rcases List.mem_cons.mp hw with rfl | hmem
    · exact h.1
    · exact ih h.2 w hmem

theorem noUnionList_mem (vs : List Validator) (h : noUnionList vs = true) :
    ∀ v ∈ vs, noUnion v = true := by
  induction vs with
  | nil => simp
  | cons v rest ih =>
    simp only [noUnionList, Bool.and_eq_true] at h
    intro w hw
    rcases List.mem_cons.mp hw with rfl | hmem
    · exact h.1
    · exact ih h.2 w hmem

theorem noUnionFields_mem (fs : List (String × Validator))
    (h : noUnionFields fs = true) : ∀ kv ∈ fs, noUnion kv.2 = true := by
  induction fs with
  | nil => simp
  | cons kv rest ih =>
    obtain ⟨k, v⟩ := kv
    simp only [noUnionFields, Bool.and_eq_true] at h
    intro w hw
    rcases List.mem_cons.mp hw with rfl | hmem
    · exact h.1
    · exact ih h.2 w hmem

/-- Raised validation errors always carry at least one entry. -/
theorem validate_error_ne_nil :
    ∀ (v : Validator) (x : PyVal) (p : String) (es : List Entry),
      validate v x p = .error es → es ≠ [] := by
  intro v
  induction v using Validator.myInduction with
  | hany =>
    intro x p es h
    simp [validate] at h
  | hnum w =>
    intro x p es h
    rcases numberValidate_error_shape w x p es (by simpa [validate] using h) with
      ⟨msg, rfl, _⟩
    simp
  | hstr w =>
    intro x p es h
    rcases stringValidate_error_shape w x p es (by simpa [validate] using h) with
      ⟨msg, rfl, _⟩
    simp
  | hlit allowed =>
    intro x p es h
    rw [literal_error_shape allowed x p es h]
    simp
  | hcn c =>
    intro x p es h
    simp only [validate] at h
    split at h
    next xs heq =>
      rcases hck : collChecks c xs p with es0 | u <;> rw [hck] at h
      · simp only [except_error_bind] at h
        injection h with h
        subst h
        rcases collChecks_error_shape c xs p _ hck with ⟨msg, rfl, _⟩
        simp
      · simp at h
    next heq =>
      injection h with h
      subst h
      simp
  | hcs c v ih =>
    intro x p es h
    simp only [validate] at h
    split at h
    next xs heq =>
      rcases hck : collChecks c xs p with es0 | u <;> rw [hck] at h
      · simp only [except_error_bind] at h
        injection h with h
        subst h
        rcases collChecks_error_shape c xs p _ hck with ⟨msg, rfl, _⟩
        simp
      · simp only [except_ok_bind] at h
        rcases he : validateEach v xs p 0 with es1 | ys <;> rw [he] at h
        · simp only [except_error_bind] at h
          injection h with h
          subst h
          rcases validateEach_error_mem v p xs 0 es1 he with ⟨j, hj, hje⟩
          exact ih _ _ _ hje
        · simp at h
    next heq =>
      injection h with h
      subst h
      simp
  | hct c vs ih =>
    intro x p es h
    simp only [validate] at h
    split at h
    next xs heq =>
      rcases hck : collChecks c xs p with es0 | u <;> rw [hck] at h
      · simp only [except_error_bind] at h
        injection h with h
        subst h
        rcases collChecks_error_shape c xs p _ hck with ⟨msg, rfl, _⟩
        simp
      · simp only [except_ok_bind] at h
        split at h
        · simp only [except_throw_eq] at h
          injection h with h
          subst h
          simp
        · rcases hz : validateZip vs xs p 0 with es1 | ys <;> rw [hz] at h
          · simp only [except_error_bind] at h
            injection h with h
            subst h
            rcases validateZip_error_mem p vs xs 0 es1 hz with ⟨j, hjv, hjx, hje⟩
            exact ih _ (List.get_mem vs j hjv) _ _ _ hje
          · simp at h
    next heq =>
      injection h with h
      subst h
      simp
  | hun vs mode ih =>
    intro x p es h
    rcases union_error_shape vs mode x p es h with ⟨msg, rfl, _⟩
    simp
  | hob fields c req ih =>
    intro x p es h
    rcases x with _ | b | n | qq | s | xs | xs | kvs <;>
      try (simp only [validate] at h; injection h with h; subst h; simp)
    simp only [validate] at h
    split at h
    · simp at h
    next hemp =>
      injection h with h
      subst h
      intro hnil
      rw [hnil] at hemp
      simp at hemp

/-- `toRat?` never sees a non-integral rational from data that passed an
int-typed validator's integer check. -/
theorem intCheck_den_one (t : NumberType) (x : PyVal) (q : ℚ)
    (hq : toRat? x = some q)
    (hb : (decide (t = NumberType.intT) && isFloatNonIntegral x) = false)
    (ht : t = NumberType.intT) : q.den = 1 := by
  subst ht
  simp only [decide_True, Bool.true_and] at hb
  rcases x with _ | b | n | q0 | s | xs | xs | kvs <;> simp [toRat?] at hq
  · cases b <;> rw [← hq] <;> simp
  · rw [← hq]
    exact Rat.den_intCast n
  · simp only [isFloatNonIntegral] at hb
    rw [← hq]
    simpa using hb

/-- Python's truncating `int(q)` is the identity on integral rationals. -/
theorem pyIntOfRat_cast (q : ℚ) (h : q.den = 1) : ((pyIntOfRat q : ℤ) : ℚ) = q := by
  have hq := (Rat.den_eq_one_iff q).mp h
  unfold pyIntOfRat
  split
  · rw [← hq, Int.floor_intCast]
  · rw [← hq, Int.ceil_intCast]

/-- The number validator is idempotent: its normalized output re-validates
to itself. -/
theorem numberValidate_idem (v : NumberV) (x : PyVal) (p : String) (y : PyVal)
    (h : numberValidate v x p = .ok y) : numberValidate v y p = .ok y := by
  unfold numberValidate at h
  rcases hq : toRat? x with _ | q <;> rw [hq] at h
  · simp at h
  by_cases hb : (decide (v.numberType = NumberType.intT) && isFloatNonIntegral x)
      = true
  · simp only [hb, if_true, except_throw_eq, except_error_bind] at h
    simp at h
  rw [Bool.not_eq_true] at hb
  simp only [hb, Bool.false_eq_true, if_false, except_pure_eq, except_ok_bind] at h
  rcases optCheck_cases v.min_val (fun m => decide (q < m)) Msg.mustBeGE p with
    h2 | ⟨m, _, _, h2⟩ <;> rw [h2] at h <;> [skip; simp at h]
  simp only [except_ok_bind] at h
  rcases optCheck_cases v.max_val (fun m => decide (m < q)) Msg.mustBeLE p with
    h3 | ⟨m, _, _, h3⟩ <;> rw [h3] at h <;> [skip; simp at h]
  simp only [except_ok_bind] at h
  rcases optCheck_cases v.exclusive_min_val (fun m => decide (q ≤ m)) Msg.mustBeGT p
    with h4 | ⟨m, _, _, h4⟩ <;> rw [h4] at h <;> [skip; simp at h]
  simp only [except_ok_bind] at h
  rcases optCheck_cases v.exclusive_max_val (fun m => decide (m ≤ q)) Msg.mustBeLT p
    with h5 | ⟨m, _, _, h5⟩ <;> rw [h5] at h <;> [skip; simp at h]
  simp only [except_ok_bind] at h
  rcases optCheck_cases v.step_val
      (fun s => !(isclose (pymod q s) 0 || isclose (pymod q s) s))
      Msg.mustBeMultipleOf p with h6 | ⟨m, _, _, h6⟩ <;> rw [h6] at h <;>
    [skip; simp at h]
  simp only [except_ok_bind, except_pure_eq] at h
  injection h with h
  subst h
  have hy : toRat? (castNumber v.numberType q) = some q := by
    cases htn : v.numberType with
    | intT =>
      have hden := intCheck_den_one v.numberType x q hq (by rw [hb]) htn
      simp [castNumber, htn, toRat?, pyIntOfRat_cast q hden]
    | floatT => simp [castNumber, htn, toRat?]
  have hb2 : (decide (v.numberType = NumberType.intT)
      && isFloatNonIntegral (castNumber v.numberType q)) = false := by
    cases htn : v.numberType with
    | intT => simp [castNumber, htn, isFloatNonIntegral]
    | floatT => simp [htn]
  unfold numberValidate
  rw [hy]
  simp only [hb2, Bool.false_eq_true, if_false, except_pure_eq, except_ok_bind]
  rw [h2]
  simp only [except_ok_bind]
  rw [h3]
  simp only [except_ok_bind]
  rw [h4]
  simp only [except_ok_bind]
  rw [h5]
  simp only [except_ok_bind]
  rw [h6]
  simp only [except_ok_bind, except_pure_eq]

/-- A successful string validation returns the input unchanged. -/
theorem stringValidate_ok_eq (v : StringV) (x : PyVal) (p : String) (y : PyVal)
    (h : stringValidate v x p = .ok y) : y = x := by
  rcases x with _ | b | n | q | s | xs | xs | kvs <;>
    simp only [stringValidate, optCheckN] at h <;>
    try exact Except.noConfusion h
  repeat'
    first
    | split at h
    | simp only [except_throw_eq, except_error_bind, except_pure_eq,
        except_ok_bind] at h
  all_goals
    first
    | (injection h with h; exact h.symm)
    | simp at h

/-- A successful literal validation returns the input unchanged. -/
theorem literal_ok_eq (allowed : List PyVal) (x : PyVal) (p : String) (y : PyVal)
    (h : validate (.literal allowed) x p = .ok y) : y = x := by
  simp only [validate] at h
  split at h
  · injection h with h
    exact h.symm
  · simp at h

theorem validateEach_idem (v : Validator)
    (hv : ∀ (x : PyVal) (pth : String) (y : PyVal),
      validate v x pth = .ok y → validate v y pth = .ok y) (p : String) :
    ∀ (xs : List PyVal) (n : ℕ) (ys : List PyVal),
      validateEach v xs p n = .ok ys →
      ys.length = xs.length ∧ validateEach v ys p n = .ok ys := by
  intro xs
  induction xs with
  | nil =>
    intro n ys h
    simp only [validateEach] at h
    injection h with h
    subst h
    exact ⟨rfl, by simp [validateEach]⟩
  | cons x rest ih =>
    intro n ys h
    simp only [validateEach] at h
    rcases hx : validate v x (idxPath p n) with es | y0 <;> rw [hx] at h
    · simp at h
    · simp only [except_ok_bind] at h
      rcases hr : validateEach v rest p (n + 1) with es | ys0 <;> rw [hr] at h
      · simp at h
      · simp only [except_ok_bind, except_pure_eq] at h
        injection h with h
        subst h
        obtain ⟨hlen, hidem⟩ := ih (n + 1) ys0 hr
        refine ⟨by simp [hlen], ?_⟩
        simp only [validateEach, hv x _ y0 hx, except_ok_bind, hidem,
          except_pure_eq]

theorem validateZip_idem (p : String) :
    ∀ (vs : List Validator),
      (∀ v ∈ vs, ∀ (x : PyVal) (pth : String) (y : PyVal),
        validate v x pth = .ok y → validate v y pth = .ok y) →
      ∀ (xs : List PyVal) (n : ℕ) (ys : List PyVal),
        validateZip vs xs p n = .ok ys →
        ys.length = min vs.length xs.length ∧ validateZip vs ys p n = .ok ys := by
  intro vs
  induction vs with
  | nil =>
    intro _ xs n ys h
    simp only [validateZip] at h
    injection h with h
    subst h
    exact ⟨by simp, by simp [validateZip]⟩
  | cons v vrest ih =>
    intro hv xs n ys h
    rcases xs with _ | ⟨x, xrest⟩
    · simp only [validateZip] at h
      injection h with h
      subst h
      exact ⟨by simp, by simp [validateZip]⟩
    · simp only [validateZip] at h
      rcases hx : validate v x (idxPath p n) with es | y0 <;> rw [hx] at h
      · simp at h
      · simp only [except_ok_bind] at h
        rcases hr : validateZip vrest xrest p (n + 1) with es | ys0 <;>
          rw [hr] at h
        · simp at h
        · simp only [except_ok_bind, except_pure_eq] at h
          injection h with h
          subst h
          obtain ⟨hlen, hidem⟩ := ih
            (fun w hw => hv w (List.mem_cons_of_mem _ hw)) xrest (n + 1) ys0 hr
          have hvv := hv v (List.mem_cons_self _ _) x (idxPath p n) y0 hx
          refine ⟨by simp [hlen, Nat.succ_min_succ], ?_⟩
          simp only [validateZip, hvv, except_ok_bind, hidem, except_pure_eq]

theorem collChecks_ok_of_length (c : CollConstraints) (xs ys : List PyVal)
    (p : String) (hu : c.unique = false) (hlen : ys.length = xs.length)
    (h : collChecks c xs p = .ok ()) : collChecks c ys p = .ok () := by
  unfold collChecks at h ⊢
  rw [hlen]
  simp only [hu, Bool.false_and, Bool.false_eq_true, if_false] at h ⊢
  exact h

theorem containsKey_eq_of_keys (fd kvs : List (String × PyVal)) (k : String)
    (h : fd.map Prod.fst = kvs.map Prod.fst) :
    containsKey fd k = containsKey kvs k := by
  induction fd generalizing kvs with
  | nil =>
    rcases kvs with _ | ⟨kv2, rest2⟩
    · rfl
    · simp at h
  | cons kv rest ih =>
    rcases kvs with _ | ⟨kv2, rest2⟩
    · simp at h
    · simp only [List.map_cons, List.cons.injEq] at h
      show (kv.1 == k || containsKey rest k) = (kv2.1 == k || containsKey rest2 k)
      rw [h.1, ih rest2 h.2]

theorem objectItems_idem (fields : List (String × Validator)) (strict : Bool)
    (p : String)
    (hIH : ∀ kv ∈ fields, ∀ (x : PyVal) (pth : String) (y : PyVal),
      validate kv.2 x pth = .ok y → validate kv.2 y pth = .ok y) :
    ∀ (kvs fd : List (String × PyVal)),
      objectItems fields strict kvs p = (fd, []) →
      fd.map Prod.fst = kvs.map Prod.fst
      ∧ objectItems fields strict fd p = (fd, []) := by
  intro kvs
  induction kvs with
  | nil =>
    intro fd h
    simp only [objectItems] at h
    injection h with h1 h2
    subst h1
    exact ⟨rfl, by simp [objectItems]⟩
  | cons kv rest ih =>
    intro fd h
    obtain ⟨k, val⟩ := kv
    simp only [objectItems] at h
    rcases hl : lookupValidate fields k val (joinField p k) with _ | r0 <;>
      rw [hl] at h
    · cases strict with
      | true =>
        simp only [if_true] at h
        injection h with h1 h2
        simp at h2
      | false =>
        simp only [Bool.false_eq_true, if_false] at h
        injection h with h1 h2
        subst h1
        have hrest : objectItems fields false rest p
            = ((objectItems fields false rest p).1, []) := by
          rw [← h2]
        obtain ⟨hkeys, hidem⟩ := ih _ hrest
        refine ⟨by simp [hkeys], ?_⟩
        simp only [objectItems, hl, Bool.false_eq_true, if_false, hidem]
    · rcases r0 with es0 | y0
      · simp only at h
        injection h with h1 h2
        have hes0 : es0 = [] := List.append_eq_nil.mp h2 |>.1
        rw [lookupValidate_eq] at hl
        rcases hf : lookupField fields k with _ | fv <;> rw [hf] at hl
        · simp at hl
        · simp only [Option.map_some'] at hl
          injection hl with hl
          exact absurd hes0
            (validate_error_ne_nil fv val (joinField p k) es0 hl)
      · simp only at h
        injection h with h1 h2
        subst h1
        have hrest : objectItems fields strict rest p
            = ((objectItems fields strict rest p).1, []) := by
          rw [← h2]
        obtain ⟨hkeys, hidem⟩ := ih _ hrest
        rw [lookupValidate_eq] at hl
        rcases hf : lookupField fields k with _ | fv <;> rw [hf] at hl
        · simp at hl
        · simp only [Option.map_some'] at hl
          injection hl with hl
          have hfv := lookupField_mem_eq fields k fv hf
          have hok2 := hIH (k, fv) hfv val (joinField p k) y0 hl
          have hl2 : lookupValidate fields k y0 (joinField p k)
              = some (.ok y0) := by
            rw [lookupValidate_eq, hf]
            simp [hok2]
          refine ⟨by simp [hkeys], ?_⟩
          simp only [objectItems, hl2, hidem]

/-- C9 (amended): validation is idempotent for every validator tree without
a `unique` flag and without a union node — re-validating a normalized value
accepts and returns it unchanged.  (The counterexample shows `unique` breaks
this; unions can also change results across passes when normalization flips
which alternative accepts.) -/
theorem c9_amended :
    ∀ (v : Validator), noUnique v = true → noUnion v = true →
      ∀ (x : PyVal) (p : String) (y : PyVal),
        validate v x p = .ok y → validate v y p = .ok y := by
  intro v
  induction v using Validator.myInduction with
  | hany =>
    intro _ _ x p y h
    simp [validate]
  | hnum w =>
    intro _ _ x p y h
    simp only [validate] at h ⊢
    exact numberValidate_idem w x p y h
  | hstr w =>
    intro _ _ x p y h
    have heq := stringValidate_ok_eq w x p y (by simpa [validate] using h)
    rw [heq]
    rw [heq] at h
    exact h
  | hlit allowed =>
    intro _ _ x p y h
    have heq := literal_ok_eq allowed x p y h
    rw [heq]
    rw [heq] at h
    exact h
  | hcn c =>
    intro hu hn x p y h
    simp only [validate] at h
    split at h
    next xs heq =>
      rcases hck : collChecks c xs p with es | u <;> rw [hck] at h
      · simp at h
      · simp only [except_ok_bind, except_pure_eq] at h
        injection h with h
        subst h
        simp only [validate, asSeq, hck, except_ok_bind, except_pure_eq]
    next heq => simp at h
  | hcs c v ihv =>
    intro hu hn x p y h
    simp only [noUnique, Bool.and_eq_true, Bool.not_eq_true'] at hu
    simp only [noUnion] at hn
    have hv := ihv hu.2 hn
    simp only [validate] at h
    split at h
    next xs heq =>
      rcases hck : collChecks c xs p with es | u <;> rw [hck] at h
      · simp at h
      · simp only [except_ok_bind] at h
        rcases he : validateEach v xs p 0 with es | ys <;> rw [he] at h
        · simp at h
        · simp only [except_ok_bind, except_pure_eq] at h
          injection h with h
          subst h
          obtain ⟨hlen, hidem⟩ := validateEach_idem v hv p xs 0 ys he
          have hck2 := collChecks_ok_of_length c xs ys p hu.1 hlen hck
          simp only [validate, asSeq, hck2, except_ok_bind, hidem,
            except_pure_eq]
    next heq => simp at h
  | hct c vs ihs =>
    intro hu hn x p y h
    simp only [noUnique, Bool.and_eq_true, Bool.not_eq_true'] at hu
    simp only [noUnion] at hn
    have hv : ∀ w ∈ vs, ∀ (x2 : PyVal) (pth : String) (y2 : PyVal),
        validate w x2 pth = .ok y2 → validate w y2 pth = .ok y2 :=
      fun w hw => ihs w hw (noUniqueList_mem vs hu.2 w hw)
        (noUnionList_mem vs hn w hw)
    simp only [validate] at h
    split at h
    next xs heq =>
      rcases hck : collChecks c xs p with es | u <;> rw [hck] at h
      · simp at h
      · simp only [except_ok_bind] at h
        split at h
        next hne =>
          simp at h
        next hne =>
          have hlen : xs.length = vs.length := by
            by_contra hc
            exact hne hc
          rcases hz : validateZip vs xs p 0 with es | ys <;> rw [hz] at h
          · simp at h
          · simp only [except_ok_bind, except_pure_eq] at h
            injection h with h
            subst h
            obtain ⟨hlen2, hidem⟩ := validateZip_idem p vs hv xs 0 ys hz
            have hylen : ys.length = xs.length := by
              rw [hlen2, hlen]
              simp
            have hck2 := collChecks_ok_of_length c xs ys p hu.1 hylen hck
            have hylen2 : ¬(ys.length ≠ vs.length) := by
              rw [hylen, hlen]
              simp
            simp only [validate, asSeq, hck2, except_ok_bind, hylen2,
              if_false, hidem, except_pure_eq]
    next heq => simp at h
  | hun vs mode ih =>
    intro _ hn
    simp [noUnion] at hn
  | hob fields c req ihf =>
    intro hu hn x p y h
    simp only [noUnique] at hu
    simp only [noUnion] at hn
    have hIH : ∀ kv ∈ fields, ∀ (x2 : PyVal) (pth : String) (y2 : PyVal),
        validate kv.2 x2 pth = .ok y2 → validate kv.2 y2 pth = .ok y2 :=
      fun kv hkv => ihf kv hkv (noUniqueFields_mem fields hu kv hkv)
        (noUnionFields_mem fields hn kv hkv)
    rcases x with _ | b | n | qq | s | xs | xs | kvs <;>
      try (simp only [validate] at h; exact Except.noConfusion h)
    simp only [validate] at h
    split at h
    next hemp =>
      injection h with h
      subst h
      rw [List.isEmpty_iff, List.append_eq_nil, List.append_eq_nil] at hemp
      obtain ⟨⟨hmiss, hitems⟩, hmin⟩ := hemp
      have hobj : objectItems fields c.strictLike kvs p
          = ((objectItems fields c.strictLike kvs p).1, []) := by
        rw [← hitems]
      obtain ⟨hkeys, hidem⟩ := objectItems_idem fields c.strictLike p hIH kvs _
        hobj
      have hck : ∀ k2, containsKey (objectItems fields c.strictLike kvs p).1 k2
          = containsKey kvs k2 := fun k2 =>
        containsKey_eq_of_keys _ kvs k2 hkeys
      have hfd_len : (objectItems fields c.strictLike kvs p).1.length
          = kvs.length := by
        have := congrArg List.length hkeys
        simpa using this
      have hmiss2 : req.filter
          (fun k => !(containsKey (objectItems fields c.strictLike kvs p).1 k))
          = [] := by
        have hfun : (fun k => !(containsKey
            (objectItems fields c.strictLike kvs p).1 k))
            = (fun k => !(containsKey kvs k)) := by
          funext k2
          rw [hck k2]
        rw [hfun]
        exact List.map_eq_nil.mp hmiss
      simp only [validate, hmiss2, List.map_nil, hidem, hfd_len, hmin,
        List.nil_append, List.append_nil]
      simp
    · simp at h

/-- Witness for C9 (amended): a record of one int field normalizes a float
input and the output re-validates to itself. -/
theorem c9_witness :
    validate (.object [("k", .number ⟨.intT, Option.none, Option.none,
        Option.none, Option.none, Option.none⟩)] ⟨false, Option.none⟩ ["k"])
      (.dict [("k", .int 2)]) "" = .ok (.dict [("k", .int 2)]) := by
  exact c9_amended
    (.object [("k", .number ⟨.intT, Option.none, Option.none, Option.none,
      Option.none, Option.none⟩)] ⟨false, Option.none⟩ ["k"])
    (by simp [noUnique, noUniqueFields])
    (by simp [noUnion, noUnionFields])
    (.dict [("k", .float 2)]) "" (.dict [("k", .int 2)])
    (by norm_num [validate, objectItems, lookupValidate, containsKey, joinField,
      numberValidate, toRat?, isFloatNonIntegral, castNumber, pyIntOfRat,
      optCheck])

/-- C9 (refuted as stated): a unique-constrained sequence of int-sequences
accepts `[(1,), [1]]` — the tuple and the list are not Python-equal — and
normalizes both elements to `[1]`; re-validating that output fails the
uniqueness check.  Validation is not idempotent. -/
theorem c9_counterexample :
    validate c9Outer (.list [.tuple [.int 1], .list [.int 1]]) "" = .ok c9Output
    ∧ validate c9Outer c9Output "" = .error [("", Msg.duplicateItems)] := by
  constructor <;>
    simp [c9Outer, c9Inner, c9Output, validate, validateEach, collChecks, asSeq,
      hasPyDup, pyEq, pyEqList, optCheckN, numberValidate, toRat?,
      isFloatNonIntegral, optCheck, castNumber, pyIntOfRat, idxPath]

/-- C7 (refuted as stated): the spec says a malformed constraint clause
makes schema compilation raise `SchemaDefinitionError`.  `parse_constraints`
contains no `raise` at all — the model `parseConstraints` is a total
function with no error outcome — and the malformed trailing clause `!` of
`"min=5;!"` is silently reinterpreted as `NotConstraint(LeafConstraint("",
True))` instead of producing any error. -/
theorem c7_counterexample :
    parseConstraints "min=5;!" =
      ParseResult.complexL
        [ConstraintNode.leaf "min" (CVal.s "5"),
         ConstraintNode.notC (ConstraintNode.leaf "" (CVal.b true))] := by
  rfl

/-- C7 (amended): there is no compile-time parse failure because
`parse_constraints` never fails: any clause containing one of the complex
syntax characters is handed to the complex parser, which — like the simple
parser — silently reinterprets malformed clauses rather than raising:
`"=5"` becomes the flag constraint `{"5": True}` and `"min="` the flag
constraint `{"min": True}`. -/
theorem c7_amended :
    (∀ s : String, ∀ c ∈ s.toList, (c = '?' ∨ c = '!' ∨ c = '|') →
      ∃ nodes, parseConstraints s = ParseResult.complexL nodes) ∧
    parseConstraints "=5" = ParseResult.simple [("5", CVal.b true)] ∧
    parseConstraints "min=" = ParseResult.simple [("min", CVal.b true)] := by
  refine ⟨?_, rfl, rfl⟩
  intro s c hc hor
  refine ⟨parseComplex s, ?_⟩
  have hne : ¬ s.isEmpty := by
    intro h
    rw [String.isEmpty_iff] at h
    subst h
    have hnil : String.toList "" = [] := rfl
    rw [hnil] at hc
    exact absurd hc (List.not_mem_nil c)
  have hany : (s.data.any (fun c => decide (c = '?') || decide (c = '!') ||
      decide (c = '|'))) = true := by
    rw [List.any_eq_true]
    exact ⟨c, hc, by rcases hor with h | h | h <;> simp [h]⟩
  simp [parseConstraints, hne, hany]

/-- Witness for C7 (amended): a clause containing `!` always reaches the
complex parser and yields a node list, never an error. -/
theorem c7_witness :
    ∃ nodes, parseConstraints "!required" = ParseResult.complexL nodes :=
  c7_amended.1 "!required" '!' (by decide) (Or.inr (Or.inl rfl))


/-! ### C8: compilation is memoized by descriptor identity -/

theorem schemaRecAll {P : Schema → Prop}
    (h1 : P .sInt) (h2 : P .sFloat) (h3 : P .sStr) (h4 : P .sBool)
    (h5 : P .sAnyT) (h6 : P .sNoneT)
    (h7 : ∀ vs, P (.sLit vs))
    (h8 : ∀ b a, P b → P (.sAnnotated b a))
    (h9 : ∀ i, P i → P (.sList i))
    (h10 : ∀ ts, (∀ t ∈ ts, P t) → P (.sTuple ts))
    (h11 : ∀ ts, (∀ t ∈ ts, P t) → P (.sUnion ts))
    (h12 : ∀ i, P i → P (.sNotRequired i))
    (h13 : ∀ n fs r, (∀ kv ∈ fs, P kv.2) → P (.sTypedDict n fs r)) :
    ∀ d, P d := by
  have H : ∀ (n : Nat) (d : Schema), sizeOf d ≤ n → P d := by
    intro n
    induction n with
    | zero =>
      intro d hd
      cases d <;> simp at hd
    | succ n ih =>
      intro d hd
      cases d with
      | sInt => exact h1
      | sFloat => exact h2
      | sStr => exact h3
      | sBool => exact h4
      | sAnyT => exact h5
      | sNoneT => exact h6
      | sLit vs => exact h7 vs
      | sAnnotated b a =>
        refine h8 b a (ih b ?_)
        simp at hd
        omega
      | sList i =>
        refine h9 i (ih i ?_)
        simp at hd
        omega
      | sTuple ts =>
        refine h10 ts (fun t hmem => ih t ?_)
        have hlt := List.sizeOf_lt_of_mem hmem
        simp at hd
        omega
      | sUnion ts =>
        refine h11 ts (fun t hmem => ih t ?_)
        have hlt := List.sizeOf_lt_of_mem hmem
        simp at hd
        omega
      | sNotRequired i =>
        refine h12 i (ih i ?_)
        simp at hd
        omega
      | sTypedDict nm fs r =>
        refine h13 nm fs r (fun kv hmem => ih kv.2 ?_)
        have hlt := List.sizeOf_lt_of_mem hmem
        obtain ⟨k, fv⟩ := kv
        simp at hd hlt ⊢
        omega
  exact fun d => H (sizeOf d) d le_rfl

theorem schemaBEqList_refl_of (ts : List Schema)
    (h : ∀ t ∈ ts, schemaBEq t t = true) : schemaBEqList ts ts = true := by
  induction ts with
  | nil => simp [schemaBEqList]
  | cons a rest ih =>
    simp only [schemaBEqList, Bool.and_eq_true]
    exact ⟨h a (by simp), ih (fun t ht => h t (by simp [ht]))⟩

theorem schemaBEqFields_refl_of (fs : List (String × Schema))
    (h : ∀ kv ∈ fs, schemaBEq kv.2 kv.2 = true) :
    schemaBEqFields fs fs = true := by
  induction fs with
  | nil => simp [schemaBEqFields]
  | cons kv rest ih =>
    obtain ⟨k, v⟩ := kv
    simp only [schemaBEqFields, Bool.and_eq_true]
    exact ⟨⟨by simp, h (k, v) (by simp)⟩, ih (fun kv hkv => h kv (by simp [hkv]))⟩

theorem schemaBEq_refl : ∀ d : Schema, schemaBEq d d = true := by
  intro d
  induction d using schemaRecAll with
  | h1 => simp [schemaBEq]
  | h2 => simp [schemaBEq]
  | h3 => simp [schemaBEq]
  | h4 => simp [schemaBEq]
  | h5 => simp [schemaBEq]
  | h6 => simp [schemaBEq]
  | h7 vs => simp [schemaBEq]
  | h8 b a ih => simp [schemaBEq, ih]
  | h9 i ih => simp [schemaBEq, ih]
  | h10 ts ih => simp only [schemaBEq]; exact schemaBEqList_refl_of ts ih
  | h11 ts ih => simp only [schemaBEq]; exact schemaBEqList_refl_of ts ih
  | h12 i ih => simp [schemaBEq, ih]
  | h13 nm fs r ih =>
    simp only [schemaBEq, Bool.and_eq_true]
    exact ⟨⟨by simp, schemaBEqFields_refl_of fs ih⟩, by simp⟩

theorem schemaBEqList_sound_of (ts : List Schema)
    (ih : ∀ t ∈ ts, ∀ e, schemaBEq t e = true → t = e) :
    ∀ es, schemaBEqList ts es = true → ts = es := by
  induction ts with
  | nil =>
    intro es h
    cases es with
    | nil => rfl
    | cons b bs => simp [schemaBEqList] at h
  | cons a rest ihr =>
    intro es h
    cases es with
    | nil => simp [schemaBEqList] at h
    | cons b bs =>
      simp only [schemaBEqList, Bool.and_eq_true] at h
      rw [ih a (by simp) b h.1,
        ihr (fun t ht e => ih t (by simp [ht]) e) bs h.2]

theorem schemaBEqFields_sound_of (fs : List (String × Schema))
    (ih : ∀ kv ∈ fs, ∀ e, schemaBEq kv.2 e = true → kv.2 = e) :
    ∀ gs, schemaBEqFields fs gs = true → fs = gs := by
  induction fs with
  | nil =>
    intro gs h
    cases gs with
    | nil => rfl
    | cons b bs => simp [schemaBEqFields] at h
  | cons kv rest ihr =>
    intro gs h
    obtain ⟨k, v⟩ := kv
    cases gs with
    | nil => simp [schemaBEqFields] at h
    | cons kw ws =>
      obtain ⟨k2, w⟩ := kw
      simp only [schemaBEqFields, Bool.and_eq_true] at h
      have hk : k = k2 := by
        have := h.1.1
        simpa using this
      have hv : v = w := ih (k, v) (by simp) w h.1.2
      rw [hk, hv, ihr (fun kv hkv e => ih kv (by simp [hkv]) e) ws h.2]

theorem schemaBEq_sound : ∀ d e : Schema, schemaBEq d e = true → d = e := by
  intro d
  induction d using schemaRecAll with
  | h1 => intro e h; cases e <;> simp [schemaBEq] at h ⊢
  | h2 => intro e h; cases e <;> simp [schemaBEq] at h ⊢
  | h3 => intro e h; cases e <;> simp [schemaBEq] at h ⊢
  | h4 => intro e h; cases e <;> simp [schemaBEq] at h ⊢
  | h5 => intro e h; cases e <;> simp [schemaBEq] at h ⊢
  | h6 => intro e h; cases e <;> simp [schemaBEq] at h ⊢
  | h7 vs =>
    intro e h
    cases e <;> simp [schemaBEq] at h ⊢
    exact h
  | h8 b a ih =>
    intro e h
    cases e <;> simp [schemaBEq] at h ⊢
    exact ⟨ih _ h.1, h.2⟩
  | h9 i ih =>
    intro e h
    cases e <;> simp [schemaBEq] at h ⊢
    exact ih _ h
  | h10 ts ih =>
    intro e h
    cases e <;> simp [schemaBEq] at h
    exact congrArg Schema.sTuple (schemaBEqList_sound_of ts ih _ h)
  | h11 ts ih =>
    intro e h
    cases e <;> simp [schemaBEq] at h
    exact congrArg Schema.sUnion (schemaBEqList_sound_of ts ih _ h)
  | h12 i ih =>
    intro e h
    cases e <;> simp [schemaBEq] at h ⊢
    exact ih _ h
  | h13 nm fs r ih =>
    intro e h
    cases e <;> simp [schemaBEq] at h
    obtain ⟨⟨hn, hf⟩, hr⟩ := h
    subst hn
    subst hr
    rw [schemaBEqFields_sound_of fs ih _ hf]

theorem lookupC_append_left (c1 c2 : List (Schema × CValidator)) (d : Schema)
    (v : CValidator) (h : lookupC c1 d = some v) :
    lookupC (c1 ++ c2) d = some v := by
  induction c1 with
  | nil => simp [lookupC] at h
  | cons p rest ih =>
    obtain ⟨k, w⟩ := p
    by_cases hk : schemaBEq k d = true <;>
      simp only [lookupC, hk, if_true, if_false, List.cons_append] at h ⊢
    · exact h
    · simp only [hk, Bool.false_eq_true, if_false]
      exact ih h

theorem lookupC_append_right (c1 c2 : List (Schema × CValidator)) (d : Schema)
    (h : lookupC c1 d = Option.none) :
    lookupC (c1 ++ c2) d = lookupC c2 d := by
  induction c1 with
  | nil => simp
  | cons p rest ih =>
    obtain ⟨k, w⟩ := p
    by_cases hk : schemaBEq k d = true <;>
      simp only [lookupC, hk, if_true, if_false, List.cons_append] at h ⊢
    · exact absurd h (by simp)
    · simp only [hk, Bool.false_eq_true, if_false]
      exact ih h

theorem lookupC_some_mem (c : List (Schema × CValidator)) (d : Schema)
    (v : CValidator) (h : lookupC c d = some v) :
    ∃ k, (k, v) ∈ c ∧ schemaBEq k d = true := by
  induction c with
  | nil => simp [lookupC] at h
  | cons p rest ih =>
    obtain ⟨k, w⟩ := p
    by_cases hk : schemaBEq k d = true <;>
      simp only [lookupC, hk, if_true, if_false] at h
    · injection h with h
      exact ⟨k, by simp [h], hk⟩
    · simp only [hk, Bool.false_eq_true, if_false] at h
      rcases ih h with ⟨k2, hmem, hbeq⟩
      exact ⟨k2, by simp [hmem], hbeq⟩

theorem lookupC_ne_none_of_mem (c : List (Schema × CValidator)) (d : Schema)
    (v : CValidator) (h : (d, v) ∈ c) : lookupC c d ≠ Option.none := by
  induction c with
  | nil => simp at h
  | cons p rest ih =>
    obtain ⟨k, w⟩ := p
    rcases List.mem_cons.mp h with heq | hmem
    · injection heq with h1 h2
      subst h1
      simp [lookupC, schemaBEq_refl]
    · by_cases hk : schemaBEq k d = true <;> simp only [lookupC, hk, if_true]
      · simp
      · simp only [Bool.false_eq_true, if_false]
        exact ih hmem

theorem CacheExt.rfl (st : CompState) (b : Nat) : CacheExt st st b :=
  ⟨[], [], by simp, by simp, by simp, by simp, fun h => h⟩

theorem CacheExt.mono (st st' : CompState) (b b' : Nat) (hb : b ≤ b')
    (h : CacheExt st st' b) : CacheExt st st' b' := by
  obtain ⟨ext, bext, h1, h2, h3, h4, h5⟩ := h
  exact ⟨ext, bext, h1, h2, fun p hp => lt_of_lt_of_le (h3 p hp) hb, h4, h5⟩

theorem CacheExt.trans (st1 st2 st3 : CompState) (b : Nat)
    (h12 : CacheExt st1 st2 b) (h23 : CacheExt st2 st3 b) :
    CacheExt st1 st3 b := by
  obtain ⟨e1, b1, hc1, hb1, hs1, hp1, hn1⟩ := h12
  obtain ⟨e2, b2, hc2, hb2, hs2, hp2, hn2⟩ := h23
  refine ⟨e1 ++ e2, b1 ++ b2, by simp [hc2, hc1], by simp [hb2, hb1],
    ?_, ?_, ?_⟩
  · intro p hp
    rcases List.mem_append.mp hp with h | h
    · exact hs1 p h
    · exact hs2 p h
  · simpa using hp1.append hp2
  · exact fun hnd => hn2 (hn1 hnd)

theorem insertC_append (c : List (Schema × CValidator)) (d : Schema)
    (v : CValidator) (h : lookupC c d = Option.none) :
    insertC c d v = c ++ [(d, v)] := by
  simp [insertC, h]

theorem lookupC_none_of_bounds (ext : List (Schema × CValidator)) (d : Schema)
    (hb : ∀ p ∈ ext, sizeOf p.1 < sizeOf d) : lookupC ext d = Option.none := by
  cases hl : lookupC ext d with
  | none => rfl
  | some v =>
    rcases lookupC_some_mem ext d v hl with ⟨k, hmem, hbeq⟩
    have hkd : k = d := schemaBEq_sound k d hbeq
    subst hkd
    exact absurd (hb (k, v) hmem) (lt_irrefl _)

theorem compile_cacheExt : ∀ n : Nat,
    (∀ fs st, 5 * sizeOf fs ≤ n →
      CacheExt st (compileFieldsC fs st).2 (sizeOf fs)) ∧
    (∀ ds st, 5 * sizeOf ds ≤ n →
      CacheExt st (compileList ds st).2 (sizeOf ds)) ∧
    (∀ fields reqd cs st, 5 * sizeOf fields + 1 ≤ n →
      CacheExt st (compileTypedDict fields reqd cs st).2 (sizeOf fields)) ∧
    (∀ base cs st, 5 * sizeOf base + 4 ≤ n →
      CacheExt st (buildAnnotated base cs st).2 (sizeOf base + 1)) ∧
    (∀ d st, 5 * sizeOf d + 2 ≤ n →
      CacheExt st (buildValidator d st).2 (sizeOf d)) ∧
    (∀ d st, 5 * sizeOf d + 3 ≤ n →
      CacheExt st (compileS d st).2 (sizeOf d + 1) ∧
        lookupC (compileS d st).2.cache d = some (compileS d st).1) := by
  intro n
  induction n using Nat.strong_induction_on with
  | _ n IH =>
  refine ⟨?_, ?_, ?_, ?_, ?_, ?_⟩
  · -- compileFieldsC
    intro fs st hle
    cases fs with
    | nil =>
      have h : compileFieldsC [] st = ([], st) := by
        simp [compileFieldsC]
      rw [h]
      exact CacheExt.rfl st _
    | cons kv rest =>
      obtain ⟨k, v⟩ := kv
      by_cases hk : k = "_"
      · have h : compileFieldsC ((k, v) :: rest) st = compileFieldsC rest st := by
          simp [compileFieldsC, hk]
        rw [h]
        refine CacheExt.mono _ _ _ _ (by simp <;> omega)
          ((IH (5 * sizeOf rest) (by simp at hle; omega)).1 rest st le_rfl)
      · rcases h1 : compileS v st with ⟨cv, st1⟩
        rcases h2 : compileFieldsC rest st1 with ⟨cvs, st2⟩
        have h : compileFieldsC ((k, v) :: rest) st = ((k, cv) :: cvs, st2) := by
          simp [compileFieldsC, hk, h1, h2]
        rw [h]
        have e1 : CacheExt st st1 (sizeOf v + 1) := by
          have h3 := ((IH (5 * sizeOf v + 3) (by simp at hle; omega)).2.2.2.2.2
            v st le_rfl).1
          rw [h1] at h3
          exact h3
        have e2 : CacheExt st1 st2 (sizeOf rest) := by
          have h3 := (IH (5 * sizeOf rest) (by simp at hle; omega)).1 rest st1
            le_rfl
          rw [h2] at h3
          exact h3
        exact CacheExt.trans _ _ _ _
          (CacheExt.mono _ _ _ _ (by simp <;> omega) e1)
          (CacheExt.mono _ _ _ _ (by simp <;> omega) e2)
  · -- compileList
    intro ds st hle
    cases ds with
    | nil =>
      have h : compileList [] st = ([], st) := by
        simp [compileList]
      rw [h]
      exact CacheExt.rfl st _
    | cons d rest =>
      rcases h1 : compileS d st with ⟨cv, st1⟩
      rcases h2 : compileList rest st1 with ⟨cvs, st2⟩
      have h : compileList (d :: rest) st = (cv :: cvs, st2) := by
        simp [compileList, h1, h2]
      rw [h]
      have e1 : CacheExt st st1 (sizeOf d + 1) := by
        have h3 := ((IH (5 * sizeOf d + 3) (by simp at hle; omega)).2.2.2.2.2
          d st le_rfl).1
        rw [h1] at h3
        exact h3
      have e2 : CacheExt st1 st2 (sizeOf rest) := by
        have h3 := (IH (5 * sizeOf rest) (by simp at hle; omega)).2.1 rest st1
          le_rfl
        rw [h2] at h3
        exact h3
      exact CacheExt.trans _ _ _ _
        (CacheExt.mono _ _ _ _ (by simp <;> omega) e1)
        (CacheExt.mono _ _ _ _ (by simp <;> omega) e2)
  · -- compileTypedDict
    intro fields reqd cs st hle
    rcases h1 : compileFieldsC fields st with ⟨fvs, st1⟩
    have h : compileTypedDict fields reqd cs st
        = (CValidator.objectVC fvs (tdConstraints cs fields) reqd, st1) := by
      simp [compileTypedDict, h1]
    rw [h]
    have e1 := (IH (5 * sizeOf fields) (by omega)).1 fields st le_rfl
    rw [h1] at e1
    exact e1
  · -- buildAnnotated
    intro base cs st hle
    cases base with
    | sInt => simp only [buildAnnotated]; exact CacheExt.rfl st _
    | sFloat => simp only [buildAnnotated]; exact CacheExt.rfl st _
    | sStr => simp only [buildAnnotated]; exact CacheExt.rfl st _
    | sLit vals => simp only [buildAnnotated]; exact CacheExt.rfl st _
    | sList item =>
      rcases h1 : compileS item st with ⟨iv, st1⟩
      have h : buildAnnotated (Schema.sList item) cs st
          = (CValidator.collectionVC cs iv (lookupCV cs "contains"), st1) := by
        simp [buildAnnotated, h1]
      rw [h]
      have e1 := ((IH (5 * sizeOf item + 3) (by simp at hle; omega)).2.2.2.2.2
        item st le_rfl).1
      rw [h1] at e1
      exact CacheExt.mono _ _ _ _ (by simp <;> omega) e1
    | sTuple items =>
      rcases h1 : compileList items st with ⟨ivs, st1⟩
      have h : buildAnnotated (Schema.sTuple items) cs st
          = (CValidator.tupleVC cs ivs, st1) := by
        simp [buildAnnotated, h1]
      rw [h]
      have e1 := (IH (5 * sizeOf items) (by simp at hle; omega)).2.1 items st
        le_rfl
      rw [h1] at e1
      exact CacheExt.mono _ _ _ _ (by simp <;> omega) e1
    | sUnion alts =>
      rcases h1 : compileList alts st with ⟨vs, st1⟩
      have h : buildAnnotated (Schema.sUnion alts) cs st
          = (CValidator.unionVC vs (cvTruthy (lookupCV cs "one_of")) cs, st1) := by
        simp [buildAnnotated, h1]
      rw [h]
      have e1 := (IH (5 * sizeOf alts) (by simp at hle; omega)).2.1 alts st
        le_rfl
      rw [h1] at e1
      exact CacheExt.mono _ _ _ _ (by simp <;> omega) e1
    | sTypedDict nm fields reqd =>
      have h : buildAnnotated (Schema.sTypedDict nm fields reqd) cs st
          = compileTypedDict fields reqd cs st := by
        simp [buildAnnotated]
      rw [h]
      exact CacheExt.mono _ _ _ _ (by simp <;> omega)
        ((IH (5 * sizeOf fields + 1) (by simp at hle; omega)).2.2.1 fields
          reqd cs st le_rfl)
    | sBool =>
      have h : buildAnnotated Schema.sBool cs st = compileS Schema.sBool st := by
        simp [buildAnnotated]
      rw [h]
      exact ((IH (5 * sizeOf Schema.sBool + 3) (by simp at hle ⊢; omega)).2.2.2.2.2
        Schema.sBool st le_rfl).1
    | sAnyT =>
      have h : buildAnnotated Schema.sAnyT cs st = compileS Schema.sAnyT st := by
        simp [buildAnnotated]
      rw [h]
      exact ((IH (5 * sizeOf Schema.sAnyT + 3) (by simp at hle ⊢; omega)).2.2.2.2.2
        Schema.sAnyT st le_rfl).1
    | sNoneT =>
      have h : buildAnnotated Schema.sNoneT cs st = compileS Schema.sNoneT st := by
        simp [buildAnnotated]
      rw [h]
      exact ((IH (5 * sizeOf Schema.sNoneT + 3) (by simp at hle ⊢; omega)).2.2.2.2.2
        Schema.sNoneT st le_rfl).1
    | sAnnotated b2 a2 =>
      have h : buildAnnotated (Schema.sAnnotated b2 a2) cs st
          = compileS (Schema.sAnnotated b2 a2) st := by
        simp [buildAnnotated]
      rw [h]
      exact ((IH (5 * sizeOf (Schema.sAnnotated b2 a2) + 3)
        (by simp at hle ⊢; omega)).2.2.2.2.2 (Schema.sAnnotated b2 a2) st
        le_rfl).1
    | sNotRequired i2 =>
      have h : buildAnnotated (Schema.sNotRequired i2) cs st
          = compileS (Schema.sNotRequired i2) st := by
        simp [buildAnnotated]
      rw [h]
      exact ((IH (5 * sizeOf (Schema.sNotRequired i2) + 3)
        (by simp at hle ⊢; omega)).2.2.2.2.2 (Schema.sNotRequired i2) st
        le_rfl).1
  · -- buildValidator
    intro d st hle
    cases d with
    | sInt => simp only [buildValidator]; exact CacheExt.rfl st _
    | sFloat => simp only [buildValidator]; exact CacheExt.rfl st _
    | sStr => simp only [buildValidator]; exact CacheExt.rfl st _
    | sBool => simp only [buildValidator]; exact CacheExt.rfl st _
    | sAnyT => simp only [buildValidator]; exact CacheExt.rfl st _
    | sNoneT => simp only [buildValidator]; exact CacheExt.rfl st _
    | sLit vals => simp only [buildValidator]; exact CacheExt.rfl st _
    | sAnnotated base anns =>
      rcases hsp : splitParsed (parseConstraints (annString anns)) with
        ⟨constraints, wrappers⟩
      rcases hba : buildAnnotated base constraints st with ⟨bv, st1⟩
      have hsnd : (buildValidator (Schema.sAnnotated base anns) st).2 = st1 := by
        simp only [buildValidator, hsp, hba]
        split <;> rfl
      rw [hsnd]
      have e1 := (IH (5 * sizeOf base + 4) (by simp at hle; omega)).2.2.2.1
        base constraints st le_rfl
      rw [hba] at e1
      exact CacheExt.mono _ _ _ _ (by simp <;> omega) e1
    | sTypedDict nm fields reqd =>
      have h : buildValidator (Schema.sTypedDict nm fields reqd) st
          = compileTypedDict fields reqd [] st := by
        simp [buildValidator]
      rw [h]
      exact CacheExt.mono _ _ _ _ (by simp <;> omega)
        ((IH (5 * sizeOf fields + 1) (by simp at hle; omega)).2.2.1 fields
          reqd [] st le_rfl)
    | sList item =>
      rcases h1 : compileS item st with ⟨iv, st1⟩
      have h : buildValidator (Schema.sList item) st
          = (CValidator.collectionVC [] iv Option.none, st1) := by
        simp [buildValidator, h1]
      rw [h]
      have e1 := ((IH (5 * sizeOf item + 3) (by simp at hle; omega)).2.2.2.2.2
        item st le_rfl).1
      rw [h1] at e1
      exact CacheExt.mono _ _ _ _ (by simp <;> omega) e1
    | sTuple items =>
      rcases h1 : compileList items st with ⟨ivs, st1⟩
      have h : buildValidator (Schema.sTuple items) st
          = (CValidator.tupleVC [] ivs, st1) := by
        simp [buildValidator, h1]
      rw [h]
      have e1 := (IH (5 * sizeOf items) (by simp at hle; omega)).2.1 items st
        le_rfl
      rw [h1] at e1
      exact CacheExt.mono _ _ _ _ (by simp <;> omega) e1
    | sUnion alts =>
      rcases h1 : compileList alts st with ⟨vs, st1⟩
      have h : buildValidator (Schema.sUnion alts) st
          = (CValidator.unionVC vs false [], st1) := by
        simp [buildValidator, h1]
      rw [h]
      have e1 := (IH (5 * sizeOf alts) (by simp at hle; omega)).2.1 alts st
        le_rfl
      rw [h1] at e1
      exact CacheExt.mono _ _ _ _ (by simp <;> omega) e1
    | sNotRequired inner =>
      have h : buildValidator (Schema.sNotRequired inner) st
          = compileS inner st := by
        simp [buildValidator]
      rw [h]
      exact CacheExt.mono _ _ _ _ (by simp <;> omega)
        ((IH (5 * sizeOf inner + 3) (by simp at hle; omega)).2.2.2.2.2 inner st
          le_rfl).1
  · -- compileS
    intro d st hle
    cases hl : lookupC st.cache d with
    | some v =>
      have h : compileS d st = (v, st) := by
        simp [compileS, hl]
      rw [h]
      exact ⟨CacheExt.rfl st _, hl⟩
    | none =>
      rcases hb : buildValidator d { st with builds := st.builds ++ [d] } with
        ⟨v, st1⟩
      have h : compileS d st = (v, { st1 with cache := insertC st1.cache d v }) := by
        simp [compileS, hl, hb]
      have e1 := (IH (5 * sizeOf d + 2) (by omega)).2.2.2.2.1 d
        { st with builds := st.builds ++ [d] } le_rfl
      rw [hb] at e1
      obtain ⟨ext, bext, hc, hbds, hsz, hperm, hnd⟩ := e1
      simp only at hc hbds
      have hnone1 : lookupC st1.cache d = Option.none := by
        rw [hc]
        rw [lookupC_append_right _ _ _ hl]
        exact lookupC_none_of_bounds ext d hsz
      have hins : insertC st1.cache d v = st1.cache ++ [(d, v)] :=
        insertC_append _ _ _ hnone1
      rw [h]
      constructor
      · refine ⟨ext ++ [(d, v)], d :: bext, ?_, ?_, ?_, ?_, ?_⟩
        · rw [hins, hc, List.append_assoc]
        · simp [hbds]
        · intro p hp
          rcases List.mem_append.mp hp with hp1 | hp2
          · exact lt_trans (hsz p hp1) (by omega)
          · simp only [List.mem_singleton] at hp2
            rw [hp2]
            simp
        · simp only [List.map_append]
          refine (hperm.cons d).trans ?_
          exact (List.perm_append_singleton d (ext.map Prod.fst)).symm
        · intro hnodup
          simp only [hins]
          have hnd1 : (st1.cache.map Prod.fst).Nodup := hnd hnodup
          have hdne : d ∉ st1.cache.map Prod.fst := by
            intro hmem
            rcases List.mem_map.mp hmem with ⟨p, hpmem, hpd⟩
            obtain ⟨k2, v2⟩ := p
            simp only at hpd
            subst hpd
            exact lookupC_ne_none_of_mem _ _ _ hpmem hnone1
          simp [List.nodup_append, hnd1, hdne]
      · simp only [hins]
        rw [lookupC_append_right _ _ _ hnone1]
        simp [lookupC, schemaBEq_refl]

theorem compileS_cached (d : Schema) (st : CompState) (v : CValidator)
    (h : lookupC st.cache d = some v) : compileS d st = (v, st) := by
  simp [compileS, h]

theorem compileS_self_cached (d : Schema) (st : CompState) :
    lookupC (compileS d st).2.cache d = some (compileS d st).1 :=
  ((compile_cacheExt (5 * sizeOf d + 3)).2.2.2.2.2 d st le_rfl).2

theorem compileS_cacheExt (d : Schema) (st : CompState) :
    CacheExt st (compileS d st).2 (sizeOf d + 1) :=
  ((compile_cacheExt (5 * sizeOf d + 3)).2.2.2.2.2 d st le_rfl).1

theorem lookupC_persists (e : Schema) (st : CompState) (d : Schema)
    (v : CValidator) (h : lookupC st.cache d = some v) :
    lookupC (compileS e st).2.cache d = some v := by
  obtain ⟨ext, bext, hc, h2, h3, h4, h5⟩ := compileS_cacheExt e st
  rw [hc]
  exact lookupC_append_left _ _ _ _ h

theorem cacheOk_preserved (st st' : CompState) (b : Nat) (h : CacheExt st st' b)
    (hperm : st.builds.Perm (st.cache.map Prod.fst)) :
    st'.builds.Perm (st'.cache.map Prod.fst) := by
  obtain ⟨ext, bext, hc, hb2, h3, hp, h5⟩ := h
  rw [hc, hb2, List.map_append]
  exact hperm.append hp

theorem cacheNodup_preserved (st st' : CompState) (b : Nat)
    (h : CacheExt st st' b) (hnd : (st.cache.map Prod.fst).Nodup) :
    (st'.cache.map Prod.fst).Nodup := by
  obtain ⟨e1, e2, e3, e4, e5, e6, hf⟩ := h
  exact hf hnd

/-- C8: `SchemaCompiler.compile` memoizes by descriptor identity.  Compiling
a descriptor `d` leaves its validator in the cache under `d`; compiling when
`d` is already cached returns the cached validator with the state — cache
and build log — completely unchanged, so no second build happens; the entry
survives compiling any other schema `e` (including one that reuses `d` as a
child, since child compilations go through the same `compileS`), after which
compiling `d` again still returns that one shared validator; and the build
log stays in bijection with the duplicate-free cache keys: one descriptor,
one validator, built at most once. -/
theorem c8_compile_memoizes (d e : Schema) (st : CompState)
    (hnd : (st.cache.map Prod.fst).Nodup)
    (hperm : st.builds.Perm (st.cache.map Prod.fst)) :
    lookupC (compileS d st).2.cache d = some (compileS d st).1
    ∧ (∀ v, lookupC st.cache d = some v → compileS d st = (v, st))
    ∧ lookupC (compileS e (compileS d st).2).2.cache d = some (compileS d st).1
    ∧ compileS d (compileS e (compileS d st).2).2
        = ((compileS d st).1, (compileS e (compileS d st).2).2)
    ∧ (compileS e (compileS d st).2).2.builds.Perm
        ((compileS e (compileS d st).2).2.cache.map Prod.fst)
    ∧ ((compileS e (compileS d st).2).2.cache.map Prod.fst).Nodup := by
  have h1 := compileS_self_cached d st
  have h3 := lookupC_persists e (compileS d st).2 d (compileS d st).1 h1
  refine ⟨h1, fun v hv => compileS_cached d st v hv, h3,
    compileS_cached d _ _ h3, ?_, ?_⟩
  · exact cacheOk_preserved _ _ _ (compileS_cacheExt e (compileS d st).2)
      (cacheOk_preserved _ _ _ (compileS_cacheExt d st) hperm)
  · exact cacheNodup_preserved _ _ _ (compileS_cacheExt e (compileS d st).2)
      (cacheNodup_preserved _ _ _ (compileS_cacheExt d st) hnd)

/-- Witness for C8: the memoization conclusions at the concrete descriptor
`List[int]` compiled from a fresh compiler state, followed by a compile of
its child `int` (a cache hit: the child was already compiled and cached
while building `List[int]`). -/
theorem c8_witness :
    lookupC (compileS (Schema.sList Schema.sInt) ⟨[], []⟩).2.cache
        (Schema.sList Schema.sInt)
      = some (compileS (Schema.sList Schema.sInt) ⟨[], []⟩).1
    ∧ (∀ v, lookupC (⟨[], []⟩ : CompState).cache (Schema.sList Schema.sInt)
          = some v →
        compileS (Schema.sList Schema.sInt) ⟨[], []⟩ = (v, ⟨[], []⟩))
    ∧ lookupC (compileS Schema.sInt
          (compileS (Schema.sList Schema.sInt) ⟨[], []⟩).2).2.cache
        (Schema.sList Schema.sInt)
      = some (compileS (Schema.sList Schema.sInt) ⟨[], []⟩).1
    ∧ compileS (Schema.sList Schema.sInt)
        (compileS Schema.sInt
          (compileS (Schema.sList Schema.sInt) ⟨[], []⟩).2).2
      = ((compileS (Schema.sList Schema.sInt) ⟨[], []⟩).1,
         (compileS Schema.sInt
           (compileS (Schema.sList Schema.sInt) ⟨[], []⟩).2).2)
    ∧ (compileS Schema.sInt
        (compileS (Schema.sList Schema.sInt) ⟨[], []⟩).2).2.builds.Perm
        ((compileS Schema.sInt
          (compileS (Schema.sList Schema.sInt) ⟨[], []⟩).2).2.cache.map
          Prod.fst)
    ∧ ((compileS Schema.sInt
        (compileS (Schema.sList Schema.sInt) ⟨[], []⟩).2).2.cache.map
        Prod.fst).Nodup :=
  c8_compile_memoizes (Schema.sList Schema.sInt) Schema.sInt ⟨[], []⟩
    (by simp) (by simp)

end Pytastic
